import Mathlib

/-!
# ArduinoShell: the plugin chain dispatcher

A verification development for `ShellPlugin.h` / `ShellPlugin.cpp`.

The transport (`HardwareSerial`) is a finite list of pending received bytes
together with the list of write operations performed so far.  Characters are
`Char`; the statically allocated arrays `_buffer` and `_cmd` are lists of
`bufSize` characters.
-/

namespace ArduinoShell

/-! ## Constants of `ShellPlugin.h` -/

/-- The zero byte: fill value of `memset` and C string terminator. -/
def NUL : Char := Char.ofNat 0

/-- Carriage return, the terminator given to `readBytesUntil` in `process()`. -/
def CR : Char := Char.ofNat 13

/-- Capacity of the two buffers: `#define bufSize 33`. -/
def bufSize : Nat := 33

/-- Index of the last cell: `#define strSize bufSize-1`, used only as
`_buffer[strSize]`. -/
def strSize : Nat := bufSize - 1

/-- Return code `#define DONE 0`. -/
def DONE : Int := 0

/-- Return code `#define NEXT -1`. -/
def NEXT : Int := -1

/-- The text of `F("UNKNOWN")`. -/
def UNKNOWN : List Char := ['U', 'N', 'K', 'N', 'O', 'W', 'N']

/-! ## Transport and dispatcher state -/

/-- One write operation on the transport `_s`: `print(text)` or `println(text)`
(the latter is the text followed by the line terminator of the transport). -/
inductive Write where
  | print (text : List Char)
  | println (text : List Char)
deriving DecidableEq, Repr

/-- A concrete plugin, seen from `process()`: `parse()` is pure virtual, reads
the shared input buffer through the protected helpers (the buffer is private
to `ShellPlugin`, a plugin cannot write it) and may write to the transport.
A plugin is given by the return code and the writes of its `parse()` for each
content of the input buffer. -/
structure Plugin where
  parse : List Char → Int × List Write

/-- Record of one invocation of `parse()`: the position of the plugin in the
chain (0 is `_begin`) and the content of `_buffer` at the time of the call. -/
structure Call where
  plugin : Nat
  buffer : List Char
deriving DecidableEq, Repr

/-- State of the dispatcher: pending received bytes of the transport (`rx`),
writes performed on it (`tx`), the static `_buffer`, and the history of the
`parse()` invocations (a ghost field, the code keeps no such record). -/
structure Shell where
  rx : List Char
  tx : List Write
  buffer : List Char
  calls : List Call
deriving DecidableEq, Repr

/-- The function `Stream::readBytesUntil(terminator, buffer, length)` of the
Arduino core,
on the pending bytes `rx`:
```
while (index < length) {
  int c = timedRead();
  if (c < 0 || c == terminator) break;
  *buffer++ = (char)c; index++;
}
```
`timedRead()` gives `-1` when nothing is pending.  Returns the characters
stored (in order) and the bytes left pending.  The terminator is consumed and
not stored. -/
def readBytesUntil (terminator : Char) : Nat → List Char → List Char × List Char
  | 0, rx => ([], rx)
  | _ + 1, [] => ([], [])
  | n + 1, c :: rx =>
    if c = terminator then ([], rx)
    else
      let r := readBytesUntil terminator n rx
      (c :: r.1, r.2)

/-- The buffer after `memset(_buffer, 0, bufSize*sizeof(char))`. -/
def memsetBuffer : List Char := List.replicate bufSize NUL

/-- Writing `stored` from the start of an array `arr`, the cells after it keep
their content. -/
def store (stored arr : List Char) : List Char :=
  stored ++ arr.drop stored.length

/-- Result of the chain walk of `process()`: the invocations made, what the
invoked plugins wrote, and whether `current` is non-null on leaving the loop
(that is, the loop was left by `break`). -/
structure Walk where
  calls : List Call
  writes : List Write
  handled : Bool
deriving DecidableEq, Repr

/-- The loop
```
while(current) { if(current->parse() == 0) break; current = current->_next; }
```
over the chain from plugin number `i` on; the list is the sequence of plugins
reached from `current` through the `_next` links. -/
def walk (buffer : List Char) : Nat → List Plugin → Walk
  | _, [] => ⟨[], [], false⟩
  | i, p :: rest =>
    let r := p.parse buffer
    if r.1 = 0 then ⟨[⟨i, buffer⟩], r.2, true⟩
    else
      let w := walk buffer (i + 1) rest
      ⟨⟨i, buffer⟩ :: w.calls, r.2 ++ w.writes, w.handled⟩

/-- One iteration of the outer loop of `process()` (the body executed when
`_s->available() > 0`): clear, read until CR, and dispatch when
`_buffer[strSize] == 0 && _begin`. -/
def processLine (chain : List Plugin) (s : Shell) : Shell :=
  let r := readBytesUntil CR bufSize s.rx
  let buffer := store r.1 memsetBuffer
  if buffer.getD strSize NUL = NUL ∧ chain.isEmpty = false then
    let w := walk buffer 0 chain
    { rx := r.2
      tx := s.tx ++ w.writes ++ (if w.handled then [] else [Write.println UNKNOWN])
      buffer := buffer
      calls := s.calls ++ w.calls }
  else
    { rx := r.2, tx := s.tx, buffer := buffer, calls := s.calls }

/-- The loop `while(_s->available() > 0) { ... }` of `process()`, at most `fuel`
iterations. -/
def processLoop (chain : List Plugin) : Nat → Shell → Shell
  | 0, s => s
  | fuel + 1, s =>
    if s.rx.isEmpty then s
    else processLoop chain fuel (processLine chain s)

/-- The function `ShellPlugin::process()`.  Every iteration takes at least one byte from the
transport (`processLine_rx_lt`), so one iteration per pending byte is enough
for the loop to leave by its own condition (`process_rx`). -/
def process (chain : List Plugin) (s : Shell) : Shell :=
  processLoop chain s.rx.length s

/-- The content of `_buffer` after a cleared buffer received `line`: the line
followed by zero bytes up to `bufSize`. -/
def padded (line : List Char) : List Char :=
  line ++ List.replicate (bufSize - line.length) NUL

/-! ## Registration: the constructor and the chain in memory -/

/-- The `ShellPlugin` objects in memory.  An object is named by its address;
`next a` is the member `_next` of the object at `a` and `begin` is the static
`_begin`; `none` is the null pointer. -/
structure Registry where
  begin : Option Nat
  next : Nat → Option Nat

/-- Assignment `a->_next = v`. -/
def setNext (next : Nat → Option Nat) (a : Nat) (v : Option Nat) : Nat → Option Nat :=
  fun x => if x = a then v else next x

/-- The loop `while(end->_next) end = end->_next;` started with `end = e`: the
value of `end` on leaving it, or `none` when it is still running after `fuel`
tests of its condition. -/
def findEnd (next : Nat → Option Nat) : Nat → Nat → Option Nat
  | 0, _ => none
  | fuel + 1, e =>
    match next e with
    | none => some e
    | some n => findEnd next fuel n

/-- The constructor `ShellPlugin::ShellPlugin()` run on the object at address
`this`: the initialiser `_next(NULL)`, then the body. -/
def construct (fuel : Nat) (r : Registry) (this : Nat) : Option Registry :=
  let next := setNext r.next this none
  match r.begin with
  | some b =>
    match findEnd next fuel b with
    | some e => some { begin := some b, next := setNext next e (some this) }
    | none => none
  | none => some { begin := some this, next := next }

/-- Constructing the objects at the given addresses one after the other. -/
def constructAll (fuel : Nat) : Registry → List Nat → Option Registry
  | r, [] => some r
  | r, p :: ps =>
    match construct fuel r p with
    | some r1 => constructAll fuel r1 ps
    | none => none

/-- The traversal `current = start; while(current) current = current->_next;`
as made by `process()`: the addresses visited, or `none` when a null link is
not reached within `fuel` objects. -/
def chainFrom (next : Nat → Option Nat) : Nat → Option Nat → Option (List Nat)
  | _, none => some []
  | 0, some _ => none
  | fuel + 1, some a => (chainFrom next fuel (next a)).map (fun l => a :: l)

/-- The list `l` is the chain that starts at `start`: each link leads to the
next element and the link of the last one is null. -/
def IsChain (next : Nat → Option Nat) : Option Nat → List Nat → Prop
  | start, [] => start = none
  | start, a :: l => start = some a ∧ IsChain next (next a) l

/-! ## Tokenization helpers -/

/-- What the protected helpers of a plugin work on during `parse()`: the input
buffer `_buffer`, the scratch copy `_cmd`, the position kept by `strtok`
between calls (an index into `_cmd`, `none` for a null pointer) and the
writes made on the transport. -/
structure ParseState where
  buffer : List Char
  cmd : List Char
  saved : Option Nat
  tx : List Write
deriving DecidableEq, Repr

/-- Membership in the delimiter string `" ;"`. -/
def isDelim (c : Char) : Bool := c == ' ' || c == ';'

/-- The C function `strspn(s, " ;")`: number of leading delimiters.  The zero
byte is no delimiter, the count stops there. -/
def spanDelims : List Char → Nat
  | [] => 0
  | c :: cs => if isDelim c then spanDelims cs + 1 else 0

/-- The C function `strcspn(s, " ;")`: number of leading characters that are
neither a delimiter nor the zero byte. -/
def spanToken : List Char → Nat
  | [] => 0
  | c :: cs => if c = NUL ∨ isDelim c then 0 else spanToken cs + 1

/-- The C function `strtok(str, " ;")` for a non-null `str` at index `start` of
the array `mem`, as in avr-libc: skip the leading delimiters; at the zero byte
return null and keep a null position; otherwise the token starts here, runs
to the next delimiter or zero byte; a delimiter is overwritten with a zero
byte and the position kept is the cell after it, at a zero byte the position
kept is null.  Returns the token (index of its first character), the array
and the position kept.  A cell beyond the array reads as a zero byte. -/
def strtokFrom (mem : List Char) (start : Nat) : Option Nat × List Char × Option Nat :=
  let b := start + spanDelims (mem.drop start)
  if mem.getD b NUL = NUL then (none, mem, none)
  else
    let e := b + spanToken (mem.drop b)
    if mem.getD e NUL = NUL then (some b, mem, none)
    else (some b, mem.set e NUL, some (e + 1))

/-- The helper `ShellPlugin::getCmd()`: `memcpy(_cmd, _buffer, bufSize*sizeof(char))`, a
copy of the whole array (both have `bufSize` cells), then
`strtok(_cmd, " ;")`. -/
def getCmd (s : ParseState) : Option Nat × ParseState :=
  let r := strtokFrom s.buffer 0
  (r.1, { s with cmd := r.2.1, saved := r.2.2 })

/-- The helper `ShellPlugin::getNextArg()`: `strtok(NULL, " ;")`, which continues at the
position kept and returns null when that position is null. -/
def getNextArg (s : ParseState) : Option Nat × ParseState :=
  match s.saved with
  | none => (none, s)
  | some p =>
    let r := strtokFrom s.cmd p
    (r.1, { s with cmd := r.2.1, saved := r.2.2 })

/-- The C string that starts at index `i` of `mem`: the characters up to the
first zero byte. -/
def cstrAt (mem : List Char) (i : Nat) : List Char :=
  (mem.drop i).takeWhile (fun c => c != NUL)

/-- The text of `F("DONE ")`. -/
def DONE_ : List Char := ['D', 'O', 'N', 'E', ' ']

/-- The helper `ShellPlugin::done()`: `print(F("DONE "))`, `println(_buffer)` (the C string
in `_buffer`), `return DONE`. -/
def done (s : ParseState) : Int × ParseState :=
  (DONE, { s with tx := s.tx ++ [Write.print DONE_, Write.println (cstrAt s.buffer 0)] })

/-- The string a returned `char*` points to, read in `_cmd` when the helper
returns; `none` for a null pointer. -/
def tokenOf (r : Option Nat × ParseState) : Option (List Char) :=
  r.1.map (fun i => cstrAt r.2.cmd i)

/-- Successive calls of `getNextArg()`, `n` of them: the tokens returned and the state
reached. -/
def nextArgs : Nat → ParseState → List (Option (List Char)) × ParseState
  | 0, s => ([], s)
  | n + 1, s =>
    let r := getNextArg s
    let rs := nextArgs n r.2
    (tokenOf r :: rs.1, rs.2)

/-- A tokenization sequence: `getCmd()` followed by `n` calls of
`getNextArg()`. -/
def tokenize (n : Nat) (s : ParseState) : List (Option (List Char)) × ParseState :=
  let r := getCmd s
  let rs := nextArgs n r.2
  (tokenOf r :: rs.1, rs.2)

/-- The maximal non-empty runs of characters of `line` that are neither space
nor semicolon, in order: the pieces between delimiters, the empty ones left
out. -/
def runs (line : List Char) : List (List Char) :=
  (line.splitOnP (fun c => isDelim c)).filter (fun t => !t.isEmpty)

/-- A call of one of the two tokenization helpers. -/
inductive HelperCall where
  | getCmd
  | getNextArg
deriving DecidableEq, Repr

/-- The state after a sequence of calls of `getCmd()` and `getNextArg()`. -/
def runCalls : List HelperCall → ParseState → ParseState
  | [], s => s
  | HelperCall.getCmd :: cs, s => runCalls cs (getCmd s).2
  | HelperCall.getNextArg :: cs, s => runCalls cs (getNextArg s).2

/-- The state in which `parse()` finds the helpers when `process()` dispatches
`line`: the buffer holds the padded line; scratch, position and transport as
they were left. -/
def dispatched (line cmd : List Char) (saved : Option Nat) (tx : List Write) : ParseState :=
  { buffer := padded line, cmd := cmd, saved := saved, tx := tx }

/-! ## Pin arguments -/

/-- The C predicate `isspace`: space, and the control characters 9 to 13. -/
def isSpace (c : Char) : Bool := c.toNat == 32 || (9 ≤ c.toNat && c.toNat ≤ 13)

/-- The C predicate `isdigit`. -/
def isDigit (c : Char) : Bool := 48 ≤ c.toNat && c.toNat ≤ 57

/-- Value of a digit character. -/
def digitOf (c : Char) : Nat := c.toNat - 48

/-- The digit loop of `atoi`: `acc = acc * 10 + digit` over the leading digits. -/
def atoiDigits : List Char → Nat → Nat
  | [], acc => acc
  | c :: cs, acc => if isDigit c then atoiDigits cs (acc * 10 + digitOf c) else acc

/-- Conversion to `int`, 16 bits two's complement as on the AVR boards:
the value modulo 2^16, taken in the range -32768 to 32767. -/
def toInt16 (v : Int) : Int := (v + 32768) % 65536 - 32768

/-- The C function `atoi` on a C string (its characters up to the zero byte),
as in avr-libc: skip white space, take an optional sign, then the leading
digits; no overflow detection, the arithmetic is that of `int`. -/
def atoi (s : List Char) : Int :=
  match s.dropWhile isSpace with
  | '-' :: r => toInt16 (-(atoiDigits r 0 : Int))
  | '+' :: r => toInt16 (atoiDigits r 0)
  | r => toInt16 (atoiDigits r 0)

/-- The method `ShellPlugin::getDPin(char* pin)`.  The pin is null (`none`) or
the C string pointed to; `analogInputToDigitalPin` is the macro of the board
variant (`pins_arduino.h`), a parameter here. -/
def getDPin (analogInputToDigitalPin : Int → Int) (pin : Option (List Char)) : Int :=
  match pin with
  | none => -1
  | some ('A' :: rest) => analogInputToDigitalPin (atoi rest)
  | some s => atoi s

/-- The method `ShellPlugin::getAPin(char* pin)`. -/
def getAPin (pin : Option (List Char)) : Int :=
  match pin with
  | none => -1
  | some ('A' :: rest) => atoi rest
  | some s => atoi s

/-- The inline method `int next() { return NEXT; }`. -/
def next : Int := NEXT

/-- Outcome of an argument macro inside a handler: either the handler has
returned (`return next();`) or the variable `v` is declared with a value and
the handler goes on. -/
inductive Extract where
  | returned (code : Int) (s : ParseState)
  | bound (v : Int) (s : ParseState)
deriving DecidableEq, Repr

/-- The macro `GET_DPIN(v)`:
```
char* _v = getNextArg(); if(!_v) return next();
int v = getDPin(_v);     if(v == -1) return next();
``` -/
def GET_DPIN (analogInputToDigitalPin : Int → Int) (s : ParseState) : Extract :=
  let r := getNextArg s
  match tokenOf r with
  | none => Extract.returned next r.2
  | some tok =>
    let v := getDPin analogInputToDigitalPin (some tok)
    if v = -1 then Extract.returned next r.2 else Extract.bound v r.2

/-- The macro `GET_APIN(v)`; its text in `ShellPlugin.h` is that of `GET_DPIN`,
with the call `getDPin(_v)`:
```
char* _v = getNextArg(); if(!_v) return next();
int v = getDPin(_v);     if(v == -1) return next();
``` -/
def GET_APIN (analogInputToDigitalPin : Int → Int) (s : ParseState) : Extract :=
  let r := getNextArg s
  match tokenOf r with
  | none => Extract.returned next r.2
  | some tok =>
    let v := getDPin analogInputToDigitalPin (some tok)
    if v = -1 then Extract.returned next r.2 else Extract.bound v r.2

/-- The decimal value of a string of digits, most significant first. -/
def decimalValue (d : List Char) : Nat := Nat.ofDigits 10 (d.map digitOf).reverse

/-- The macro `analogInputToDigitalPin(p)` of the standard variant (Arduino
Uno): `((p < 6) ? (p) + 14 : -1)`. -/
def unoAnalogInputToDigitalPin (p : Int) : Int := if p < 6 then p + 14 else -1

/-- The value an argument macro has bound, when the handler goes on. -/
def Extract.value : Extract → Option Int
  | Extract.returned _ _ => none
  | Extract.bound v _ => some v

/-! ## A `parse()` written with the macros -/

/-- A handler: a member function `int f()` named in an `ASSOC` line; it works
on the state of the helpers and returns a code. -/
abbrev Handler := ParseState → Int × ParseState

/-- The macro `COMP(v,c)`: `strcmp(v, #c) == 0`, equality of the C string `v`
and of the literal that `#` makes of the text received as `c`.  Used directly,
`c` is the operand of `#` and is taken as written. -/
def COMP (v c : List Char) : Bool := v == c

/-- Macro replacement of an argument that is one identifier, for a table of
object-like macros (name, text put in its place once fully replaced): the text
of the macro when the identifier is defined, the identifier otherwise. -/
def expandWith (macros : List (List Char × List Char)) (c : List Char) : List Char :=
  match macros.lookup c with
  | some text => text
  | none => c

/-- The object-like macros of `ShellPlugin.h` that stand for a value:
`#define DONE 0`, `#define NEXT -1`, `#define bufSize 33` and
`#define strSize bufSize-1`, which is replaced by `33-1`. -/
def valueMacros : List (List Char × List Char) :=
  [(['D', 'O', 'N', 'E'], ['0']), (['N', 'E', 'X', 'T'], ['-', '1']),
    (['b', 'u', 'f', 'S', 'i', 'z', 'e'], ['3', '3']),
    (['s', 't', 'r', 'S', 'i', 'z', 'e'], ['3', '3', '-', '1'])]

/-- Record of one run of a `parse()` written with the macros: the handlers
called (each named by the position of its `ASSOC` line, from 0), the code
returned and the state left. -/
structure ParseRun where
  called : List Nat
  code : Int
  state : ParseState

/-- The lines `ASSOC(c,f)`, from line number `i` on, followed by `END_PARSE`,
which is `return NEXT;`.  The macro `ASSOC(c,f)` is
`if(COMP(cmd,c)) return f();`: there `c` is an ordinary argument, no operand of
`#`, so the preprocessor replaces the macros in it before it reaches `COMP`,
which makes the literal of what it receives.  Each line is given as written,
`(c, f)`; `expand c` is the text of `c` after the replacement of macros. -/
def assocLines (expand : List Char → List Char) (cmd : List Char) :
    Nat → List (List Char × Handler) → ParseState → ParseRun
  | _, [], s => ⟨[], NEXT, s⟩
  | i, (c, f) :: rest, s =>
    if COMP cmd (expand c) then ⟨[i], (f s).1, (f s).2⟩
    else assocLines expand cmd (i + 1) rest s

/-- A `parse()` made of `BEGIN_PARSE`, the `ASSOC` lines and `END_PARSE`;
`BEGIN_PARSE` is `char* cmd = getCmd(); if(!cmd) return NEXT;`. -/
def parseMacros (expand : List Char → List Char) (assocs : List (List Char × Handler))
    (s : ParseState) : ParseRun :=
  let r := getCmd s
  match tokenOf r with
  | none => ⟨[], NEXT, r.2⟩
  | some cmd => assocLines expand cmd 0 assocs r.2

/-- A plugin whose `parse()` is written with the macros, as `process()` sees
it: its return code and what it writes when the input buffer holds `buffer`
(the run starts from an empty record of writes, what it leaves there is what
this `parse()` wrote).  `BEGIN_PARSE` overwrites the scratch and the position
kept by `strtok` before anything reads them, so what they held before the call
does not matter. -/
def macroPlugin (expand : List Char → List Char) (assocs : List (List Char × Handler)) :
    Plugin :=
  ⟨fun buffer =>
    let r := parseMacros expand assocs
      { buffer := buffer, cmd := buffer, saved := none, tx := [] }
    (r.code, r.state.tx)⟩

/-! ## Several lines, several calls -/

/-- The bytes on the wire for a sequence of request lines, each followed by
CR. -/
def wire (lines : List (List Char)) : List Char :=
  (lines.map (fun l => l ++ [CR])).flatten

/-- Successive calls of `process()`; before each call the bytes of the next
element of `arrivals` have arrived on the transport. -/
def processCalls (chain : List Plugin) : List (List Char) → Shell → Shell
  | [], s => s
  | a :: rest, s => processCalls chain rest (process chain { s with rx := s.rx ++ a })

/-- The invocations made when `line` is dispatched to `chain`. -/
def lineCalls (chain : List Plugin) (line : List Char) : List Call :=
  (walk (padded line) 0 chain).calls

/-- What reaches the transport when `line` is dispatched to `chain`: the
writes of the invoked plugins, then `UNKNOWN` when none of them returned 0. -/
def lineWrites (chain : List Plugin) (line : List Char) : List Write :=
  (walk (padded line) 0 chain).writes ++
    (if (walk (padded line) 0 chain).handled then [] else [Write.println UNKNOWN])

/-- The plugin `p` with the return code of its `parse()` replaced by NEXT. -/
def asNext (p : Plugin) : Plugin :=
  ⟨fun buffer => (NEXT, (p.parse buffer).2)⟩

/-! ## Sample plugins and inputs -/

/-- Two `ASSOC` lines: `ASSOC(TEMP,temp)` with a handler that declines, then
`ASSOC(LED,led)` with a handler that is `return done();`. -/
def sampleAssocs : List (List Char × Handler) :=
  [(['T', 'E', 'M', 'P'], fun s => (next, s)), (['L', 'E', 'D'], done)]

/-- One `ASSOC` line whose command name is a macro of the header:
`ASSOC(DONE,ack)` with a handler that is `return done();`. -/
def doneAssocs : List (List Char × Handler) :=
  [(['D', 'O', 'N', 'E'], done)]

/-- A request line made of delimiters only. -/
def delimiterLine : List Char := [' ', ';', ' ']

/-- A plugin that returns the code 5 and writes nothing. -/
def returningFive : Plugin := ⟨fun _ => (5, [])⟩

/-- A plugin whose `parse()` is `return NEXT;`. -/
def declining : Plugin := ⟨fun _ => (NEXT, [])⟩

/-- A plugin whose `parse()` writes a line `OK` and returns DONE. -/
def accepting : Plugin := ⟨fun _ => (DONE, [Write.println ['O', 'K']])⟩

/-- A state with `rx` pending on the transport, nothing written, a zeroed
buffer (the static initialiser `= {}`) and no invocation so far. -/
def idle (rx : List Char) : Shell :=
  { rx := rx, tx := [], buffer := List.replicate bufSize NUL, calls := [] }

/-- A request line: `LED 13 1;` -/
def sampleLine : List Char := ['L', 'E', 'D', ' ', '1', '3', ' ', '1', ';']

/-- A request line of 33 characters, one more than fits. -/
def overlongLine : List Char := List.replicate 33 'a'

/-! ## Reading a line -/

theorem readBytesUntil_rx_length (t : Char) (n : Nat) (rx : List Char) :
    (readBytesUntil t n rx).2.length ≤ rx.length := by
  induction n generalizing rx with
  | zero => simp [readBytesUntil]
  | succ n ih =>
    cases rx with
    | nil => simp [readBytesUntil]
    | cons c rx =>
      simp only [readBytesUntil]
      split
      · simp
      · have := ih rx
        simp only [List.length_cons]
        omega

theorem readBytesUntil_rx_lt (t : Char) (n : Nat) (c : Char) (rx : List Char) :
    (readBytesUntil t (n + 1) (c :: rx)).2.length < (c :: rx).length := by
  simp only [readBytesUntil]
  split
  · simp
  · have := readBytesUntil_rx_length t n rx
    simp only [List.length_cons]
    omega

theorem processLine_rx (chain : List Plugin) (s : Shell) :
    (processLine chain s).rx = (readBytesUntil CR bufSize s.rx).2 := by
  unfold processLine
  simp only
  split <;> rfl

theorem processLine_rx_lt (chain : List Plugin) (s : Shell) (h : s.rx ≠ []) :
    (processLine chain s).rx.length < s.rx.length := by
  rw [processLine_rx]
  cases hrx : s.rx with
  | nil => exact absurd hrx h
  | cons c rx => exact readBytesUntil_rx_lt CR 32 c rx

theorem processLoop_rx (chain : List Plugin) (fuel : Nat) (s : Shell)
    (h : s.rx.length ≤ fuel) : (processLoop chain fuel s).rx = [] := by
  induction fuel generalizing s with
  | zero =>
    simp only [processLoop]
    exact List.length_eq_zero.mp (Nat.le_zero.mp h)
  | succ fuel ih =>
    simp only [processLoop]
    split
    · rename_i he
      simpa using he
    · rename_i he
      have hne : s.rx ≠ [] := by simpa using he
      have := processLine_rx_lt chain s hne
      exact ih _ (by omega)

/-- On return from `process()` nothing is pending on the transport: the loop
was left because `available()` is 0. -/
theorem process_rx (chain : List Plugin) (s : Shell) : (process chain s).rx = [] :=
  processLoop_rx chain _ s (Nat.le_refl _)

theorem processLoop_of_rx_nil (chain : List Plugin) (fuel : Nat) (s : Shell) (h : s.rx = []) :
    processLoop chain fuel s = s := by
  cases fuel with
  | zero => rfl
  | succ fuel => simp [processLoop, h]

theorem processLoop_fuel (chain : List Plugin) (fuel1 fuel2 : Nat) (s : Shell)
    (h1 : s.rx.length ≤ fuel1) (h2 : s.rx.length ≤ fuel2) :
    processLoop chain fuel1 s = processLoop chain fuel2 s := by
  induction fuel1 generalizing fuel2 s with
  | zero =>
    have h : s.rx = [] := List.length_eq_zero.mp (Nat.le_zero.mp h1)
    rw [processLoop_of_rx_nil chain _ s h, processLoop_of_rx_nil chain _ s h]
  | succ fuel1 ih =>
    cases hrx : s.rx with
    | nil => rw [processLoop_of_rx_nil chain _ s hrx, processLoop_of_rx_nil chain _ s hrx]
    | cons c rx =>
      have hne : s.rx ≠ [] := by simp [hrx]
      have he : s.rx.isEmpty = false := by simp [hrx]
      have hlt := processLine_rx_lt chain s hne
      cases fuel2 with
      | zero =>
        rw [hrx] at h2
        simp at h2
      | succ fuel2 =>
        simp only [processLoop, he]
        exact ih fuel2 (processLine chain s) (by omega) (by omega)

/-- More iterations allowed than pending bytes change nothing: the loop has
left by its own condition before. -/
theorem processLoop_extra (chain : List Plugin) (extra : Nat) (s : Shell) :
    processLoop chain (s.rx.length + extra) s = process chain s :=
  processLoop_fuel chain _ _ s (Nat.le_add_right _ _) (Nat.le_refl _)

theorem readBytesUntil_line (t : Char) (n : Nat) (line rest : List Char)
    (hlen : line.length < n) (ht : t ∉ line) :
    readBytesUntil t n (line ++ t :: rest) = (line, rest) := by
  induction line generalizing n with
  | nil =>
    cases n with
    | zero => simp at hlen
    | succ n => simp [readBytesUntil]
  | cons c line ih =>
    cases n with
    | zero => simp at hlen
    | succ n =>
      have hc : c ≠ t := fun h => ht (by simp [h])
      have ht' : t ∉ line := fun h => ht (by simp [h])
      have hlen' : line.length < n := by simpa using hlen
      simp [readBytesUntil, hc, ih n hlen' ht']

theorem store_memsetBuffer (line : List Char) : store line memsetBuffer = padded line := by
  simp [store, memsetBuffer, padded, List.drop_replicate]

theorem padded_length (line : List Char) (h : line.length ≤ bufSize) :
    (padded line).length = bufSize := by
  simp only [padded, List.length_append, List.length_replicate]
  omega

theorem padded_last (line : List Char) (h : line.length ≤ strSize) :
    (padded line).getD strSize NUL = NUL := by
  have h32 : line.length ≤ 32 := h
  simp only [padded, List.getD_eq_getElem?_getD]
  rw [List.getElem?_append_right h]
  rw [List.getElem?_replicate]
  split <;> rfl

theorem process_of_processLine_rx_nil (chain : List Plugin) (s : Shell)
    (h : (processLine chain s).rx = []) (hne : s.rx ≠ []) :
    process chain s = processLine chain s := by
  unfold process
  cases hrx : s.rx with
  | nil => exact absurd hrx hne
  | cons c rx =>
    have he : s.rx.isEmpty = false := by simp [hrx]
    simp only [List.length_cons, processLoop, he]
    exact processLoop_of_rx_nil chain _ _ h

/-- One valid line on the transport: `process()` is one iteration, which stores
the line in the cleared buffer and walks the chain. -/
theorem process_single_line (chain : List Plugin) (line : List Char) (s : Shell)
    (hchain : chain ≠ []) (hlen : line.length ≤ strSize) (hcr : CR ∉ line)
    (hrx : s.rx = line ++ [CR]) :
    process chain s =
      { rx := []
        tx := s.tx ++ (walk (padded line) 0 chain).writes ++
          (if (walk (padded line) 0 chain).handled then [] else [Write.println UNKNOWN])
        buffer := padded line
        calls := s.calls ++ (walk (padded line) 0 chain).calls } := by
  have hread : readBytesUntil CR bufSize s.rx = (line, []) := by
    rw [hrx]
    exact readBytesUntil_line CR bufSize line [] (Nat.lt_succ_of_le hlen) hcr
  have hempty : chain.isEmpty = false := by
    cases chain with
    | nil => exact absurd rfl hchain
    | cons p ps => rfl
  have hline : processLine chain s =
      { rx := []
        tx := s.tx ++ (walk (padded line) 0 chain).writes ++
          (if (walk (padded line) 0 chain).handled then [] else [Write.println UNKNOWN])
        buffer := padded line
        calls := s.calls ++ (walk (padded line) 0 chain).calls } := by
    unfold processLine
    simp only [hread, store_memsetBuffer, padded_last line hlen, hempty, and_self, if_true]
  have hne : s.rx ≠ [] := by simp [hrx]
  rw [process_of_processLine_rx_nil chain s (by rw [hline]) hne, hline]

/-! ## The chain walk -/

theorem walk_all_decline (buf : List Char) (chain : List Plugin) (i : Nat)
    (h : ∀ p ∈ chain, (p.parse buf).1 ≠ 0) :
    walk buf i chain =
      ⟨(List.range chain.length).map (fun j => ⟨i + j, buf⟩),
        (chain.map (fun p => (p.parse buf).2)).flatten, false⟩ := by
  induction chain generalizing i with
  | nil => rfl
  | cons p ps ih =>
    have hp : (p.parse buf).1 ≠ 0 := h p (by simp)
    have hps : ∀ q ∈ ps, (q.parse buf).1 ≠ 0 := fun q hq => h q (by simp [hq])
    simp only [walk, hp, if_false, ih (i + 1) hps, List.length_cons, List.range_succ_eq_map,
      List.map_cons, List.map_map, List.flatten_cons, Walk.mk.injEq, List.cons.injEq, and_true]
    refine ⟨rfl, ?_⟩
    apply List.map_congr_left
    intro j _
    simp only [Function.comp, Nat.succ_eq_add_one, Call.mk.injEq, and_true]
    omega

theorem walk_first_done (buf : List Char) (chain : List Plugin) (i k : Nat) (pk : Plugin)
    (hk : chain[k]? = some pk) (hdone : (pk.parse buf).1 = 0)
    (hbefore : ∀ j p, j < k → chain[j]? = some p → (p.parse buf).1 ≠ 0) :
    walk buf i chain =
      ⟨(List.range (k + 1)).map (fun j => ⟨i + j, buf⟩),
        ((chain.take (k + 1)).map (fun p => (p.parse buf).2)).flatten, true⟩ := by
  induction chain generalizing i k with
  | nil => simp at hk
  | cons p ps ih =>
    cases k with
    | zero =>
      have hp : p = pk := by simpa using hk
      subst hp
      simp [walk, hdone, List.range_succ_eq_map]
    | succ k =>
      have hp : (p.parse buf).1 ≠ 0 := hbefore 0 p (Nat.succ_pos k) (by simp)
      have hk' : ps[k]? = some pk := by simpa using hk
      have hb' : ∀ j q, j < k → ps[j]? = some q → (q.parse buf).1 ≠ 0 :=
        fun j q hj hq => hbefore (j + 1) q (Nat.succ_lt_succ hj) (by simpa using hq)
      simp only [walk, hp, if_false, ih (i + 1) k hk' hb', List.range_succ_eq_map (k + 1),
        List.map_cons, List.map_map, List.take_succ_cons, List.flatten_cons, Walk.mk.injEq,
        List.cons.injEq, and_true]
      refine ⟨rfl, ?_⟩
      apply List.map_congr_left
      intro j _
      simp only [Function.comp, Nat.succ_eq_add_one, Call.mk.injEq, and_true]
      omega

theorem exists_first (P : Plugin → Prop) (chain : List Plugin) (h : ∃ p ∈ chain, P p) :
    ∃ (k : Nat) (pk : Plugin), chain[k]? = some pk ∧ P pk ∧
      ∀ (j : Nat) (p : Plugin), j < k → chain[j]? = some p → ¬ P p := by
  classical
  induction chain with
  | nil => simp at h
  | cons q qs ih =>
    by_cases hq : P q
    · exact ⟨0, q, by simp, hq, fun j p hj => absurd hj (Nat.not_lt_zero j)⟩
    · obtain ⟨p, hp, hPp⟩ := h
      have hp' : p ∈ qs := by
        rcases List.mem_cons.mp hp with rfl | hmem
        · exact absurd hPp hq
        · exact hmem
      obtain ⟨k, pk, hk, hPk, hmin⟩ := ih ⟨p, hp', hPp⟩
      refine ⟨k + 1, pk, by simpa using hk, hPk, ?_⟩
      intro j r hj hr
      cases j with
      | zero =>
        have : q = r := by simpa using hr
        exact this ▸ hq
      | succ j => exact hmin j r (Nat.lt_of_succ_lt_succ hj) (by simpa using hr)

/-! ## Dispatch of one request line -/

/-- C1. A line of at most 32 characters (no CR) followed by CR, and a chain in
which some plugin returns DONE on it: `process()` invokes `parse()` on the
plugins number 0 to k in this order, each on the padded line, where k is the
first plugin that returns DONE; no later plugin is invoked, and what is on the
transport afterwards is what these plugins wrote: `process()` itself adds
nothing, in particular no `UNKNOWN`. -/
theorem process_stops_at_first_done (chain : List Plugin) (line : List Char) (s : Shell)
    (hlen : line.length ≤ 32) (hcr : CR ∉ line) (hrx : s.rx = line ++ [CR])
    (hdone : ∃ p ∈ chain, (p.parse (padded line)).1 = DONE) :
    ∃ k pk, chain[k]? = some pk ∧ (pk.parse (padded line)).1 = DONE ∧
      (∀ j p, j < k → chain[j]? = some p → (p.parse (padded line)).1 ≠ DONE) ∧
      (process chain s).calls =
        s.calls ++ (List.range (k + 1)).map (fun j => ⟨j, padded line⟩) ∧
      (process chain s).tx =
        s.tx ++ ((chain.take (k + 1)).map (fun p => (p.parse (padded line)).2)).flatten := by
  have hchain : chain ≠ [] := by
    rintro rfl
    simp at hdone
  obtain ⟨k, pk, hk, hPk, hmin⟩ :=
    exists_first (fun p => (p.parse (padded line)).1 = DONE) chain hdone
  refine ⟨k, pk, hk, hPk, hmin, ?_⟩
  rw [process_single_line chain line s hchain hlen hcr hrx,
    walk_first_done (padded line) chain 0 k pk hk hPk hmin]
  simp

theorem process_stops_at_first_done_witness :
    ∃ k pk, [declining, accepting, declining][k]? = some pk ∧
      (pk.parse (padded sampleLine)).1 = DONE ∧
      (∀ j p, j < k → [declining, accepting, declining][j]? = some p →
        (p.parse (padded sampleLine)).1 ≠ DONE) ∧
      (process [declining, accepting, declining] (idle (sampleLine ++ [CR]))).calls =
        (idle (sampleLine ++ [CR])).calls ++
          (List.range (k + 1)).map (fun j => ⟨j, padded sampleLine⟩) ∧
      (process [declining, accepting, declining] (idle (sampleLine ++ [CR]))).tx =
        (idle (sampleLine ++ [CR])).tx ++
          (([declining, accepting, declining].take (k + 1)).map
            (fun p => (p.parse (padded sampleLine)).2)).flatten :=
  process_stops_at_first_done [declining, accepting, declining] sampleLine
    (idle (sampleLine ++ [CR])) (by decide) (by decide) rfl ⟨accepting, by simp, rfl⟩

/-- C2. A line of at most 32 characters (no CR) followed by CR, and a non-empty
chain whose plugins all return NEXT on it: `process()` invokes `parse()` of every
plugin once, in chain order, each on the padded line, and after what the
plugins wrote it writes the one line `UNKNOWN` and nothing else; when the
plugins write nothing, `UNKNOWN` is all that reaches the transport. -/
theorem process_unknown_when_all_decline (chain : List Plugin) (line : List Char) (s : Shell)
    (hchain : chain ≠ []) (hlen : line.length ≤ 32) (hcr : CR ∉ line)
    (hrx : s.rx = line ++ [CR])
    (hnext : ∀ p ∈ chain, (p.parse (padded line)).1 = NEXT) :
    (process chain s).calls =
        s.calls ++ (List.range chain.length).map (fun j => ⟨j, padded line⟩) ∧
      (process chain s).tx =
        s.tx ++ (chain.map (fun p => (p.parse (padded line)).2)).flatten ++
          [Write.println UNKNOWN] ∧
      ((∀ p ∈ chain, (p.parse (padded line)).2 = []) →
        (process chain s).tx = s.tx ++ [Write.println UNKNOWN]) := by
  have hne : ∀ p ∈ chain, (p.parse (padded line)).1 ≠ 0 := by
    intro p hp
    rw [hnext p hp]
    decide
  have htx : (process chain s).tx =
      s.tx ++ (chain.map (fun p => (p.parse (padded line)).2)).flatten ++
        [Write.println UNKNOWN] := by
    rw [process_single_line chain line s hchain hlen hcr hrx,
      walk_all_decline (padded line) chain 0 hne]
    simp
  refine ⟨?_, htx, ?_⟩
  · rw [process_single_line chain line s hchain hlen hcr hrx,
      walk_all_decline (padded line) chain 0 hne]
    simp
  · intro hsilent
    rw [htx]
    have : (chain.map (fun p => (p.parse (padded line)).2)).flatten = [] := by
      rw [List.flatten_eq_nil_iff]
      intro l hl
      obtain ⟨p, hp, rfl⟩ := List.mem_map.mp hl
      exact hsilent p hp
    rw [this, List.append_nil]

theorem process_unknown_when_all_decline_witness :
    (process [declining, declining] (idle (sampleLine ++ [CR]))).calls =
        (idle (sampleLine ++ [CR])).calls ++
          (List.range [declining, declining].length).map (fun j => ⟨j, padded sampleLine⟩) ∧
      (process [declining, declining] (idle (sampleLine ++ [CR]))).tx =
        (idle (sampleLine ++ [CR])).tx ++
          ([declining, declining].map (fun p => (p.parse (padded sampleLine)).2)).flatten ++
          [Write.println UNKNOWN] ∧
      ((∀ p ∈ [declining, declining], (p.parse (padded sampleLine)).2 = []) →
        (process [declining, declining] (idle (sampleLine ++ [CR]))).tx =
          (idle (sampleLine ++ [CR])).tx ++ [Write.println UNKNOWN]) :=
  process_unknown_when_all_decline [declining, declining] sampleLine
    (idle (sampleLine ++ [CR])) (by simp) (by decide) (by decide) rfl
    (by intro p hp; simp at hp; subst hp; rfl)

theorem walk_head_call (buf : List Char) (p : Plugin) (ps : List Plugin) :
    ∃ rest, (walk buf 0 (p :: ps)).calls = ⟨0, buf⟩ :: rest := by
  simp only [walk]
  split
  · exact ⟨[], rfl⟩
  · exact ⟨_, rfl⟩

theorem walk_calls_buffer (buf : List Char) (chain : List Plugin) (i : Nat) :
    ∀ c ∈ (walk buf i chain).calls, c.buffer = buf := by
  induction chain generalizing i with
  | nil => simp [walk]
  | cons p ps ih =>
    intro c hc
    simp only [walk] at hc
    split at hc
    · simp only [List.mem_singleton] at hc
      rw [hc]
    · rcases List.mem_cons.mp hc with rfl | hmem
      · rfl
      · exact ih (i + 1) c hmem

/-- C4. A line of n ≤ 32 characters (no CR) followed by CR, and a non-empty
chain: `process()` dispatches it, the first invocation made is `parse()` of the
head of the chain, and at this and every later invocation the input buffer is
the n characters of the line followed by 33 - n zero bytes (33 cells in all):
the CR is not stored and no character of the line is lost, also for n = 32. -/
theorem process_dispatches_whole_line (chain : List Plugin) (line : List Char) (s : Shell)
    (hchain : chain ≠ []) (hlen : line.length ≤ 32) (hcr : CR ∉ line)
    (hrx : s.rx = line ++ [CR]) :
    (∃ rest, (process chain s).calls =
        s.calls ++ ⟨0, line ++ List.replicate (33 - line.length) NUL⟩ :: rest ∧
      ∀ c ∈ rest, c.buffer = line ++ List.replicate (33 - line.length) NUL) ∧
      (process chain s).buffer = line ++ List.replicate (33 - line.length) NUL ∧
      (line ++ List.replicate (33 - line.length) NUL).length = 33 := by
  have hpad : line ++ List.replicate (33 - line.length) NUL = padded line := rfl
  rw [hpad, process_single_line chain line s hchain hlen hcr hrx]
  refine ⟨?_, rfl, padded_length line (Nat.le_succ_of_le hlen)⟩
  cases chain with
  | nil => exact absurd rfl hchain
  | cons p ps =>
    obtain ⟨rest, hrest⟩ := walk_head_call (padded line) p ps
    refine ⟨rest, by rw [hrest], ?_⟩
    intro c hc
    exact walk_calls_buffer (padded line) (p :: ps) 0 c (by rw [hrest]; simp [hc])

theorem process_dispatches_whole_line_witness :
    (∃ rest, (process [accepting] (idle (List.replicate 32 'x' ++ [CR]))).calls =
        (idle (List.replicate 32 'x' ++ [CR])).calls ++
          ⟨0, List.replicate 32 'x' ++
            List.replicate (33 - (List.replicate 32 'x').length) NUL⟩ :: rest ∧
      ∀ c ∈ rest, c.buffer = List.replicate 32 'x' ++
        List.replicate (33 - (List.replicate 32 'x').length) NUL) ∧
      (process [accepting] (idle (List.replicate 32 'x' ++ [CR]))).buffer =
        List.replicate 32 'x' ++ List.replicate (33 - (List.replicate 32 'x').length) NUL ∧
      (List.replicate 32 'x' ++
        List.replicate (33 - (List.replicate 32 'x').length) NUL).length = 33 :=
  process_dispatches_whole_line [accepting] (List.replicate 32 'x')
    (idle (List.replicate 32 'x' ++ [CR])) (by simp) (by decide) (by decide) rfl

/-! ## Lines that do not fit -/

/-- C3, evaluated on a line of 33 characters followed by CR with a one-plugin
chain: the 33 characters are dropped, but the CR is still pending, the loop
runs again, reads an empty line, invokes `parse()` on the zeroed buffer and,
the plugin declining, writes `UNKNOWN`. -/
theorem process_overlong_line_dispatches :
    process [declining] (idle (overlongLine ++ [CR])) =
      { rx := []
        tx := [Write.println UNKNOWN]
        buffer := List.replicate 33 NUL
        calls := [⟨0, List.replicate 33 NUL⟩] } := by
  decide

/-- C5, evaluated on the single request line made of 33 times `a` and then
`b`, followed by CR: `parse()` is invoked with the buffer holding `b`, the tail
of the line left pending after its first 33 characters were dropped. -/
theorem process_dispatches_tail_fragment :
    (process [declining] (idle (overlongLine ++ ['b', CR]))).calls = [⟨0, padded ['b']⟩] ∧
      padded ['b'] ≠ padded (overlongLine ++ ['b']) := by
  decide

/-! ## No plugin registered -/

theorem processLine_nil (s : Shell) :
    (processLine [] s).tx = s.tx ∧ (processLine [] s).calls = s.calls := by
  simp [processLine]

theorem processLoop_nil (fuel : Nat) (s : Shell) :
    (processLoop [] fuel s).tx = s.tx ∧ (processLoop [] fuel s).calls = s.calls := by
  induction fuel generalizing s with
  | zero => exact ⟨rfl, rfl⟩
  | succ fuel ih =>
    simp only [processLoop]
    split
    · exact ⟨rfl, rfl⟩
    · have h1 := ih (processLine [] s)
      have h2 := processLine_nil s
      exact ⟨h1.1.trans h2.1, h1.2.trans h2.2⟩

/-- C6. With no plugin registered (`_begin` null), whatever is pending on the
transport, `process()` consumes all of it, invokes nothing and writes nothing;
so `UNKNOWN` can only be written when the chain is non-empty. -/
theorem process_silent_without_plugins (s : Shell) :
    (process [] s).tx = s.tx ∧ (process [] s).calls = s.calls ∧ (process [] s).rx = [] :=
  ⟨(processLoop_nil _ s).1, (processLoop_nil _ s).2, process_rx [] s⟩

/-! ## Registration order -/

theorem isChain_setNext_of_not_mem (next : Nat → Option Nat) (x : Nat) (v : Option Nat)
    (start : Option Nat) (l : List Nat) (h : IsChain next start l) (hx : x ∉ l) :
    IsChain (setNext next x v) start l := by
  induction l generalizing start with
  | nil => exact h
  | cons a l ih =>
    obtain ⟨hs, hl⟩ := h
    have hax : a ≠ x := fun e => hx (by simp [e])
    have hxl : x ∉ l := fun e => hx (by simp [e])
    refine ⟨hs, ?_⟩
    have : setNext next x v a = next a := by simp [setNext, hax]
    rw [this]
    exact ih (next a) hl hxl

theorem findEnd_of_isChain (next : Nat → Option Nat) (a : Nat) (l : List Nat) (fuel : Nat)
    (h : IsChain next (some a) (a :: l)) (hfuel : l.length < fuel) :
    findEnd next fuel a = (a :: l).getLast? := by
  induction l generalizing a fuel with
  | nil =>
    cases fuel with
    | zero => simp at hfuel
    | succ fuel =>
      have hnext : next a = none := h.2
      simp [findEnd, hnext]
  | cons b l ih =>
    cases fuel with
    | zero => simp at hfuel
    | succ fuel =>
      have hnext : next a = some b := h.2.1
      have hb : IsChain next (some b) (b :: l) := ⟨rfl, h.2.2⟩
      have hf : l.length < fuel := by simpa using hfuel
      simp only [findEnd, hnext]
      rw [ih b fuel hb hf]
      simp [List.getLast?_cons_cons]

theorem isChain_append (next : Nat → Option Nat) (start : Option Nat) (l : List Nat)
    (e this : Nat) (h : IsChain next start l) (hnd : l.Nodup) (hthis : this ∉ l)
    (hnull : next this = none) (hlast : l.getLast? = some e) :
    IsChain (setNext next e (some this)) start (l ++ [this]) := by
  induction l generalizing start with
  | nil => simp at hlast
  | cons a l ih =>
    obtain ⟨hs, hl⟩ := h
    have hta : this ≠ a := fun h => hthis (by simp [h])
    have htl : this ∉ l := fun h => hthis (by simp [h])
    cases l with
    | nil =>
      have hea : a = e := by simpa using hlast
      subst hea
      refine ⟨hs, ?_⟩
      have h1 : setNext next a (some this) a = some this := by simp [setNext]
      have h2 : setNext next a (some this) this = none := by simp [setNext, hta, hnull]
      rw [h1]
      exact ⟨rfl, h2⟩
    | cons b l =>
      have hlast' : (b :: l).getLast? = some e := by
        simpa [List.getLast?_cons_cons] using hlast
      have hmem : e ∈ b :: l := List.mem_of_getLast?_eq_some hlast'
      have hnd' : (b :: l).Nodup := (List.nodup_cons.mp hnd).2
      have hae : a ≠ e := fun h => (List.nodup_cons.mp hnd).1 (h ▸ hmem)
      refine ⟨hs, ?_⟩
      have h1 : setNext next e (some this) a = next a := by simp [setNext, hae]
      rw [h1]
      exact ih (next a) hl hnd' htl hlast'

theorem chainFrom_of_isChain (next : Nat → Option Nat) (start : Option Nat) (l : List Nat)
    (fuel : Nat) (h : IsChain next start l) (hfuel : l.length ≤ fuel) :
    chainFrom next fuel start = some l := by
  induction l generalizing start fuel with
  | nil =>
    have : start = none := h
    subst this
    cases fuel <;> rfl
  | cons a l ih =>
    obtain ⟨hs, hl⟩ := h
    subst hs
    cases fuel with
    | zero => simp at hfuel
    | succ fuel =>
      have hf : l.length ≤ fuel := by simpa using hfuel
      simp [chainFrom, ih (next a) fuel hl hf]

theorem isChain_last_null (next : Nat → Option Nat) (start : Option Nat) (l : List Nat)
    (e : Nat) (h : IsChain next start l) (hlast : l.getLast? = some e) : next e = none := by
  induction l generalizing start with
  | nil => simp at hlast
  | cons a l ih =>
    cases l with
    | nil =>
      have hea : a = e := by simpa using hlast
      subst hea
      exact h.2
    | cons b l =>
      exact ih (next a) h.2 (by simpa [List.getLast?_cons_cons] using hlast)

/-- One construction: on a chain `l` that does not hold `this`, the constructor
returns and the chain is `l` followed by `this`. -/
theorem construct_isChain (fuel : Nat) (r : Registry) (this : Nat) (l : List Nat)
    (h : IsChain r.next r.begin l) (hnd : l.Nodup) (hthis : this ∉ l)
    (hfuel : l.length ≤ fuel) :
    ∃ r1, construct fuel r this = some r1 ∧ IsChain r1.next r1.begin (l ++ [this]) := by
  have hframe := isChain_setNext_of_not_mem r.next this none r.begin l h hthis
  have hnull : setNext r.next this none this = none := by simp [setNext]
  cases l with
  | nil =>
    have hb : r.begin = none := h
    refine ⟨{ begin := some this, next := setNext r.next this none }, ?_, ?_⟩
    · simp [construct, hb]
    · exact ⟨rfl, hnull⟩
  | cons a l =>
    have hb : r.begin = some a := h.1
    rw [hb] at hframe
    have hpos : l.length < fuel := by simpa using hfuel
    have hend := findEnd_of_isChain (setNext r.next this none) a l fuel hframe hpos
    obtain ⟨e, he⟩ : ∃ e, (a :: l).getLast? = some e :=
      ⟨(a :: l).getLast (by simp), List.getLast?_eq_getLast _ _⟩
    rw [he] at hend
    refine ⟨{ begin := some a
              next := setNext (setNext r.next this none) e (some this) }, ?_, ?_⟩
    · simp [construct, hb, hend]
    · exact isChain_append (setNext r.next this none) (some a) (a :: l) e this hframe hnd
        hthis hnull he

theorem constructAll_isChain (fuel : Nat) (qs : List Nat) (r : Registry) (l : List Nat)
    (h : IsChain r.next r.begin l) (hnd : (l ++ qs).Nodup)
    (hfuel : (l ++ qs).length ≤ fuel) :
    ∃ r1, constructAll fuel r qs = some r1 ∧ IsChain r1.next r1.begin (l ++ qs) := by
  induction qs generalizing r l with
  | nil => exact ⟨r, rfl, by simpa using h⟩
  | cons q qs ih =>
    have hl : l.Nodup := (List.nodup_append.mp hnd).1
    have hq : q ∉ l := by
      intro hmem
      exact (List.nodup_append.mp hnd).2.2 hmem (by simp)
    have hlen : l.length ≤ fuel := by
      simp only [List.length_append, List.length_cons] at hfuel
      omega
    obtain ⟨r1, hr1, hc1⟩ := construct_isChain fuel r q l h hl hq hlen
    have hnd1 : ((l ++ [q]) ++ qs).Nodup := by simpa using hnd
    have hfuel1 : ((l ++ [q]) ++ qs).length ≤ fuel := by simpa using hfuel
    obtain ⟨r2, hr2, hc2⟩ := ih r1 (l ++ [q]) hc1 hnd1 hfuel1
    refine ⟨r2, ?_, by simpa using hc2⟩
    simp [constructAll, hr1, hr2]

/-- C7. Constructing the plugins at pairwise distinct addresses `ps`, in this
order, from an empty chain (`_begin` null, the memory otherwise arbitrary):
after the first `k` constructions, for every `k`, all constructors have
returned and the traversal from `_begin` along `_next` is exactly the first `k`
addresses in construction order.  So each construction adds the new plugin
after the ones already there (the first becomes the head), the head and the
order of the earlier ones stay, the traversal ends (finite, no address twice)
and the link of the last plugin is null. -/
theorem construct_registration_order (ps : List Nat) (next0 : Nat → Option Nat)
    (fuel k : Nat) (hnd : ps.Nodup) (hfuel : ps.length ≤ fuel) :
    ∃ r, constructAll fuel { begin := none, next := next0 } (ps.take k) = some r ∧
      chainFrom r.next fuel r.begin = some (ps.take k) ∧
      r.begin = (ps.take k).head? ∧
      (ps.take k).Nodup ∧
      ∀ e, (ps.take k).getLast? = some e → r.next e = none := by
  have hsub : (ps.take k).Nodup := hnd.sublist (List.take_sublist k ps)
  have hlen : (ps.take k).length ≤ fuel :=
    Nat.le_trans (List.take_sublist k ps).length_le hfuel
  obtain ⟨r, hr, hc⟩ := constructAll_isChain fuel (ps.take k)
    { begin := none, next := next0 } [] rfl (by simpa using hsub) (by simpa using hlen)
  have hc1 : IsChain r.next r.begin (ps.take k) := by simpa using hc
  refine ⟨r, hr, chainFrom_of_isChain r.next r.begin _ fuel hc1 hlen, ?_, hsub, ?_⟩
  · cases hl : ps.take k with
    | nil =>
      rw [hl] at hc1
      exact hc1
    | cons a l =>
      rw [hl] at hc1
      exact hc1.1
  · intro e he
    exact isChain_last_null r.next r.begin _ e hc1 he

theorem construct_registration_order_witness :
    ∃ r, constructAll 3 { begin := none, next := fun _ => some 7 } ([10, 20, 30].take 2) =
        some r ∧
      chainFrom r.next 3 r.begin = some ([10, 20, 30].take 2) ∧
      r.begin = ([10, 20, 30].take 2).head? ∧
      ([10, 20, 30].take 2).Nodup ∧
      ∀ e, ([10, 20, 30].take 2).getLast? = some e → r.next e = none :=
  construct_registration_order [10, 20, 30] (fun _ => some 7) 3 2 (by decide) (by decide)

/-! ## Arrays: reading and writing behind a prefix -/

theorem getD_after (pre : List Char) (x : Char) (rest : List Char) :
    (pre ++ x :: rest).getD pre.length NUL = x := by
  induction pre with
  | nil => rfl
  | cons c pre ih => simpa using ih

theorem set_after (pre : List Char) (x v : Char) (rest : List Char) :
    (pre ++ x :: rest).set pre.length v = pre ++ v :: rest := by
  induction pre with
  | nil => rfl
  | cons c pre ih => simp

theorem drop_after2 (pre ds rest : List Char) :
    (pre ++ (ds ++ rest)).drop (pre.length + ds.length) = rest := by
  rw [← List.append_assoc, ← List.length_append]
  exact List.drop_left _ _

theorem getD_after2 (pre ds : List Char) (x : Char) (rest : List Char) :
    (pre ++ (ds ++ x :: rest)).getD (pre.length + ds.length) NUL = x := by
  rw [← List.append_assoc, ← List.length_append]
  exact getD_after _ _ _

theorem getD_after3 (pre ds tok : List Char) (x : Char) (rest : List Char) :
    (pre ++ (ds ++ (tok ++ x :: rest))).getD (pre.length + ds.length + tok.length) NUL = x := by
  rw [← List.append_assoc, ← List.append_assoc, ← List.length_append, ← List.length_append]
  exact getD_after _ _ _

theorem set_after3 (pre ds tok : List Char) (x v : Char) (rest : List Char) :
    (pre ++ (ds ++ (tok ++ x :: rest))).set (pre.length + ds.length + tok.length) v =
      pre ++ (ds ++ (tok ++ v :: rest)) := by
  rw [← List.append_assoc, ← List.append_assoc, ← List.length_append, ← List.length_append,
    set_after, List.append_assoc, List.append_assoc]

/-! ## The C string functions -/

theorem isDelim_NUL : isDelim NUL = false := by decide

theorem spanDelims_append (ds : List Char) (x : Char) (rest : List Char)
    (hds : ∀ c ∈ ds, isDelim c = true) (hx : isDelim x = false) :
    spanDelims (ds ++ x :: rest) = ds.length := by
  induction ds with
  | nil => simp [spanDelims, hx]
  | cons d ds ih =>
    have hd : isDelim d = true := hds d (by simp)
    have hds1 : ∀ c ∈ ds, isDelim c = true := fun c hc => hds c (by simp [hc])
    simp [spanDelims, hd, ih hds1]

theorem spanToken_append (tok : List Char) (y : Char) (rest : List Char)
    (htok : ∀ c ∈ tok, isDelim c = false ∧ c ≠ NUL) (hy : y = NUL ∨ isDelim y = true) :
    spanToken (tok ++ y :: rest) = tok.length := by
  induction tok with
  | nil => simp [spanToken, hy]
  | cons c tok ih =>
    have hc := htok c (by simp)
    have htok1 : ∀ c ∈ tok, isDelim c = false ∧ c ≠ NUL := fun c hc => htok c (by simp [hc])
    simp [spanToken, hc.1, hc.2, ih htok1]

theorem takeWhile_to_NUL (tok rest : List Char) (htok : ∀ c ∈ tok, c ≠ NUL) :
    (tok ++ NUL :: rest).takeWhile (fun c => c != NUL) = tok := by
  induction tok with
  | nil => simp
  | cons c tok ih =>
    have hc : c ≠ NUL := htok c (by simp)
    have htok1 : ∀ c ∈ tok, c ≠ NUL := fun c hc => htok c (by simp [hc])
    simp [List.takeWhile_cons, hc, ih htok1]

theorem cstrAt_token (pre ds tok rest : List Char) (htok : ∀ c ∈ tok, c ≠ NUL) :
    cstrAt (pre ++ (ds ++ (tok ++ NUL :: rest))) (pre.length + ds.length) = tok := by
  unfold cstrAt
  rw [drop_after2]
  exact takeWhile_to_NUL tok rest htok

/-- The call of `strtok` on a string of delimiters only: no token. -/
theorem strtokFrom_none (pre ds tail : List Char) (hds : ∀ c ∈ ds, isDelim c = true) :
    strtokFrom (pre ++ (ds ++ NUL :: tail)) pre.length =
      (none, pre ++ (ds ++ NUL :: tail), none) := by
  unfold strtokFrom
  simp only [List.drop_left, spanDelims_append ds NUL tail hds isDelim_NUL, getD_after2, if_true]

/-- The call of `strtok` on a string whose last token runs to the terminating zero byte. -/
theorem strtokFrom_last (pre ds tok tail : List Char) (hds : ∀ c ∈ ds, isDelim c = true)
    (htok : ∀ c ∈ tok, isDelim c = false ∧ c ≠ NUL) (hne : tok ≠ []) :
    strtokFrom (pre ++ (ds ++ (tok ++ NUL :: tail))) pre.length =
      (some (pre.length + ds.length), pre ++ (ds ++ (tok ++ NUL :: tail)), none) := by
  cases tok with
  | nil => exact absurd rfl hne
  | cons c tok =>
    have hc := htok c (by simp)
    have hspan : spanDelims (ds ++ (c :: tok ++ NUL :: tail)) = ds.length :=
      spanDelims_append ds c (tok ++ NUL :: tail) hds hc.1
    have hb : (pre ++ (ds ++ (c :: tok ++ NUL :: tail))).getD (pre.length + ds.length) NUL = c :=
      getD_after2 pre ds c (tok ++ NUL :: tail)
    have he : (pre ++ (ds ++ (c :: tok ++ NUL :: tail))).getD
        (pre.length + ds.length + (c :: tok).length) NUL = NUL :=
      getD_after3 pre ds (c :: tok) NUL tail
    unfold strtokFrom
    simp only [List.drop_left, hspan, hb, hc.2, if_false, drop_after2,
      spanToken_append (c :: tok) NUL tail htok (Or.inl rfl), he, if_true]

/-- The call of `strtok` on a string whose first token is followed by a delimiter: the
delimiter becomes a zero byte and the position kept is the cell after it. -/
theorem strtokFrom_mid (pre ds tok : List Char) (d : Char) (rest : List Char)
    (hds : ∀ c ∈ ds, isDelim c = true) (htok : ∀ c ∈ tok, isDelim c = false ∧ c ≠ NUL)
    (hne : tok ≠ []) (hd : isDelim d = true) :
    strtokFrom (pre ++ (ds ++ (tok ++ d :: rest))) pre.length =
      (some (pre.length + ds.length), pre ++ (ds ++ (tok ++ NUL :: rest)),
        some (pre.length + ds.length + tok.length + 1)) := by
  have hdn : d ≠ NUL := by
    intro h
    rw [h, isDelim_NUL] at hd
    exact Bool.noConfusion hd
  cases tok with
  | nil => exact absurd rfl hne
  | cons c tok =>
    have hc := htok c (by simp)
    have hspan : spanDelims (ds ++ (c :: tok ++ d :: rest)) = ds.length :=
      spanDelims_append ds c (tok ++ d :: rest) hds hc.1
    have hb : (pre ++ (ds ++ (c :: tok ++ d :: rest))).getD (pre.length + ds.length) NUL = c :=
      getD_after2 pre ds c (tok ++ d :: rest)
    have he : (pre ++ (ds ++ (c :: tok ++ d :: rest))).getD
        (pre.length + ds.length + (c :: tok).length) NUL = d :=
      getD_after3 pre ds (c :: tok) d rest
    have hset : (pre ++ (ds ++ (c :: tok ++ d :: rest))).set
        (pre.length + ds.length + (c :: tok).length) NUL =
          pre ++ (ds ++ (c :: tok ++ NUL :: rest)) :=
      set_after3 pre ds (c :: tok) d NUL rest
    unfold strtokFrom
    simp only [List.drop_left, hspan, hb, hc.2, if_false, drop_after2,
      spanToken_append (c :: tok) d rest htok (Or.inr hd), he, hdn, hset]

/-! ## Runs of non-delimiters -/

theorem split_delims (l : List Char) :
    ∃ ds rest, l = ds ++ rest ∧ (∀ c ∈ ds, isDelim c = true) ∧
      ∀ c r, rest = c :: r → isDelim c = false := by
  induction l with
  | nil => exact ⟨[], [], rfl, by simp, by simp⟩
  | cons a l ih =>
    cases ha : isDelim a with
    | true =>
      obtain ⟨ds, rest, hl, hds, hrest⟩ := ih
      refine ⟨a :: ds, rest, by simp [hl], ?_, hrest⟩
      intro c hc
      rcases List.mem_cons.mp hc with rfl | hmem
      · exact ha
      · exact hds c hmem
    | false =>
      refine ⟨[], a :: l, rfl, by simp, ?_⟩
      intro c r h
      have : a = c := (List.cons.inj h).1
      exact this ▸ ha

theorem split_token (l : List Char) :
    ∃ tok rest, l = tok ++ rest ∧ (∀ c ∈ tok, isDelim c = false) ∧
      ∀ c r, rest = c :: r → isDelim c = true := by
  induction l with
  | nil => exact ⟨[], [], rfl, by simp, by simp⟩
  | cons a l ih =>
    cases ha : isDelim a with
    | false =>
      obtain ⟨tok, rest, hl, htok, hrest⟩ := ih
      refine ⟨a :: tok, rest, by simp [hl], ?_, hrest⟩
      intro c hc
      rcases List.mem_cons.mp hc with rfl | hmem
      · exact ha
      · exact htok c hmem
    | true =>
      refine ⟨[], a :: l, rfl, by simp, ?_⟩
      intro c r h
      have : a = c := (List.cons.inj h).1
      exact this ▸ ha

theorem runs_nil : runs [] = [] := rfl

theorem runs_delims (ds rest : List Char) (hds : ∀ c ∈ ds, isDelim c = true) :
    runs (ds ++ rest) = runs rest := by
  induction ds with
  | nil => rfl
  | cons d ds ih =>
    have hd : isDelim d = true := hds d (by simp)
    have hds1 : ∀ c ∈ ds, isDelim c = true := fun c hc => hds c (by simp [hc])
    have := ih hds1
    unfold runs at this ⊢
    simp only [List.cons_append, List.splitOnP_cons, hd, if_true]
    rw [List.filter_cons]
    simpa using this

theorem runs_single (tok : List Char) (htok : ∀ c ∈ tok, isDelim c = false) (hne : tok ≠ []) :
    runs tok = [tok] := by
  unfold runs
  rw [List.splitOnP_eq_single isDelim tok (fun c hc => by simp [htok c hc])]
  cases tok with
  | nil => exact absurd rfl hne
  | cons c tok => rfl

theorem runs_first (tok : List Char) (d : Char) (rest : List Char)
    (htok : ∀ c ∈ tok, isDelim c = false) (hne : tok ≠ []) (hd : isDelim d = true) :
    runs (tok ++ d :: rest) = tok :: runs rest := by
  unfold runs
  rw [List.splitOnP_first isDelim tok (fun c hc => by simp [htok c hc]) d hd rest]
  cases tok with
  | nil => exact absurd rfl hne
  | cons c tok => rfl

/-- Every run is non-empty and holds neither a space nor a semicolon. -/
theorem runs_token (line t : List Char) (h : t ∈ runs line) :
    t ≠ [] ∧ ∀ c ∈ t, c ≠ ' ' ∧ c ≠ ';' := by
  generalize hn : line.length = n
  induction n using Nat.strong_induction_on generalizing line with
  | _ n ih =>
    obtain ⟨ds, l1, hl, hds, hl1⟩ := split_delims line
    obtain ⟨tok, rest, hl2, htok, hrest⟩ := split_token l1
    have hchars : ∀ c ∈ tok, c ≠ ' ' ∧ c ≠ ';' := by
      intro c hc
      have := htok c hc
      simp only [isDelim, Bool.or_eq_false_iff, beq_eq_false_iff_ne, ne_eq] at this
      exact this
    subst hl hl2
    rw [runs_delims ds _ hds] at h
    cases htk : tok with
    | nil =>
      subst htk
      cases rest with
      | nil => simp [runs_nil] at h
      | cons c r =>
        have h1 := hl1 c r (by simp)
        have h2 := hrest c r rfl
        rw [h1] at h2
        exact Bool.noConfusion h2
    | cons a tk =>
      have hne : tok ≠ [] := by simp [htk]
      cases rest with
      | nil =>
        rw [List.append_nil, runs_single tok htok hne] at h
        have : t = tok := by simpa using h
        exact this ▸ ⟨hne, hchars⟩
      | cons d r =>
        have hd := hrest d r rfl
        rw [runs_first tok d r htok hne hd] at h
        rcases List.mem_cons.mp h with rfl | hmem
        · exact ⟨hne, hchars⟩
        · refine ih r.length ?_ r hmem rfl
          rw [← hn]
          simp only [List.length_append, List.length_cons]
          omega

/-! ## `strtok` returns the runs, one per call -/

/-- One call of `strtok` at the start of the C string `rem` held in the array
behind `pre`: either there is no run and null is returned, or the only run is
returned and the position kept is null, or the first run is returned and the
position kept is the start of a C string holding the remaining runs. -/
theorem strtokFrom_runs (pre rem tail : List Char) (hnul : ∀ c ∈ rem, c ≠ NUL) :
    (runs rem = [] ∧
      strtokFrom (pre ++ (rem ++ NUL :: tail)) pre.length =
        (none, pre ++ (rem ++ NUL :: tail), none)) ∨
    (∃ tok b, runs rem = [tok] ∧
      strtokFrom (pre ++ (rem ++ NUL :: tail)) pre.length =
        (some b, pre ++ (rem ++ NUL :: tail), none) ∧
      cstrAt (pre ++ (rem ++ NUL :: tail)) b = tok) ∨
    (∃ tok b pre1 rem1, runs rem = tok :: runs rem1 ∧ (∀ c ∈ rem1, c ≠ NUL) ∧
      strtokFrom (pre ++ (rem ++ NUL :: tail)) pre.length =
        (some b, pre1 ++ (rem1 ++ NUL :: tail), some pre1.length) ∧
      cstrAt (pre1 ++ (rem1 ++ NUL :: tail)) b = tok) := by
  obtain ⟨ds, l1, hl, hds, hl1⟩ := split_delims rem
  obtain ⟨tok, rest, hl2, htok, hrest⟩ := split_token l1
  subst hl hl2
  have htok1 : ∀ c ∈ tok, isDelim c = false ∧ c ≠ NUL :=
    fun c hc => ⟨htok c hc, hnul c (by simp [hc])⟩
  have htok2 : ∀ c ∈ tok, c ≠ NUL := fun c hc => (htok1 c hc).2
  cases htk : tok with
  | nil =>
    subst htk
    cases rest with
    | cons c r =>
      have h1 := hl1 c r (by simp)
      have h2 := hrest c r rfl
      rw [h1] at h2
      exact Bool.noConfusion h2
    | nil =>
      left
      refine ⟨?_, ?_⟩
      · rw [runs_delims ds _ hds]
        rfl
      · simpa using strtokFrom_none pre ds tail hds
  | cons a tk =>
    have hne : tok ≠ [] := by simp [htk]
    rw [← htk]
    cases rest with
    | nil =>
      right
      left
      refine ⟨tok, pre.length + ds.length, ?_, ?_, ?_⟩
      · rw [runs_delims ds _ hds, List.append_nil, runs_single tok htok hne]
      · simpa using strtokFrom_last pre ds tok tail hds htok1 hne
      · simpa using cstrAt_token pre ds tok tail htok2
    | cons d r =>
      right
      right
      have hd := hrest d r rfl
      have hr : ∀ c ∈ r, c ≠ NUL := fun c hc => hnul c (by simp [hc])
      refine ⟨tok, pre.length + ds.length, pre ++ (ds ++ (tok ++ [NUL])), r, ?_, hr, ?_, ?_⟩
      · rw [runs_delims ds _ hds, runs_first tok d r htok hne hd]
      · have := strtokFrom_mid pre ds tok d (r ++ NUL :: tail) hds htok1 hne hd
        simp only [List.append_assoc, List.cons_append, List.length_append, List.length_cons,
          List.length_nil, List.nil_append] at this ⊢
        rw [this]
        simp [Nat.add_assoc]
      · have := cstrAt_token pre ds tok (r ++ NUL :: tail) htok2
        simpa using this

theorem range_map_nil (n : Nat) :
    (List.range n).map (fun i => ([] : List (List Char))[i]?) = List.replicate n none := by
  simp

theorem range_map_cons (n : Nat) (t : List Char) (ts : List (List Char)) :
    (List.range (n + 1)).map (fun i => (t :: ts)[i]?) =
      some t :: (List.range n).map (fun i => ts[i]?) := by
  simp [List.range_succ_eq_map, List.map_map, Function.comp]

theorem nextArgs_of_saved_none (n : Nat) (s : ParseState) (h : s.saved = none) :
    (nextArgs n s).1 = List.replicate n none := by
  induction n with
  | zero => rfl
  | succ n ih =>
    have hg : getNextArg s = (none, s) := by simp [getNextArg, h]
    simp only [nextArgs, hg, tokenOf, Option.map_none', ih]
    rfl

/-- Repeated `getNextArg()` from a position at the start of the C string `rem`:
call number `i` returns run number `i` of `rem`, null when there is none. -/
theorem nextArgs_runs (n : Nat) (s : ParseState) (pre rem tail : List Char)
    (hcmd : s.cmd = pre ++ (rem ++ NUL :: tail)) (hsaved : s.saved = some pre.length)
    (hnul : ∀ c ∈ rem, c ≠ NUL) :
    (nextArgs n s).1 = (List.range n).map (fun i => (runs rem)[i]?) := by
  induction n generalizing s pre rem with
  | zero => rfl
  | succ n ih =>
    have hg : getNextArg s =
        ((strtokFrom s.cmd pre.length).1,
          { s with cmd := (strtokFrom s.cmd pre.length).2.1
                   saved := (strtokFrom s.cmd pre.length).2.2 }) := by
      simp [getNextArg, hsaved]
    rcases strtokFrom_runs pre rem tail hnul with
      ⟨hr, hst⟩ | ⟨tok, b, hr, hst, hc⟩ | ⟨tok, b, pre1, rem1, hr, hn1, hst, hc⟩
    · rw [hcmd, hst] at hg
      simp only [nextArgs, hg, tokenOf, hr, Option.map_none']
      rw [nextArgs_of_saved_none n _ rfl, range_map_nil]
      rfl
    · rw [hcmd, hst] at hg
      simp only [nextArgs, hg, tokenOf, hr, Option.map_some', hc]
      rw [nextArgs_of_saved_none n _ rfl, range_map_cons, range_map_nil]
    · rw [hcmd, hst] at hg
      simp only [nextArgs, hg, tokenOf, hr, Option.map_some', hc]
      rw [ih _ pre1 rem1 rfl rfl hn1, range_map_cons]

theorem padded_eq_cstr (line : List Char) (hlen : line.length ≤ 32) :
    padded line = [] ++ (line ++ NUL :: List.replicate (32 - line.length) NUL) := by
  have : bufSize - line.length = (32 - line.length) + 1 := by
    simp only [bufSize]
    omega
  simp [padded, this, List.replicate_succ]

/-- The call `getCmd()` and then `n` calls of `getNextArg()` on a dispatched line: call
number `i` returns run number `i` of the line, null when there is none. -/
theorem tokenize_eq_runs (n : Nat) (s : ParseState) (line : List Char)
    (hlen : line.length ≤ 32) (hnul : ∀ c ∈ line, c ≠ NUL) (hbuf : s.buffer = padded line) :
    (tokenize n s).1 = (List.range (n + 1)).map (fun i => (runs line)[i]?) := by
  have hpad := padded_eq_cstr line hlen
  have hg : getCmd s =
      ((strtokFrom (padded line) 0).1,
        { s with cmd := (strtokFrom (padded line) 0).2.1
                 saved := (strtokFrom (padded line) 0).2.2 }) := by
    simp [getCmd, hbuf]
  rcases strtokFrom_runs [] line (List.replicate (32 - line.length) NUL) hnul with
    ⟨hr, hst⟩ | ⟨tok, b, hr, hst, hc⟩ | ⟨tok, b, pre1, rem1, hr, hn1, hst, hc⟩
  · rw [List.length_nil] at hst
    rw [hpad, hst] at hg
    simp only [tokenize, hg, tokenOf, hr, Option.map_none']
    rw [nextArgs_of_saved_none n _ rfl, range_map_nil]
    rfl
  · rw [List.length_nil] at hst
    rw [hpad, hst] at hg
    simp only [tokenize, hg, tokenOf, hr, Option.map_some', hc]
    rw [nextArgs_of_saved_none n _ rfl, range_map_cons, range_map_nil]
  · rw [List.length_nil] at hst
    rw [hpad, hst] at hg
    simp only [tokenize, hg, tokenOf, hr, Option.map_some', hc]
    rw [nextArgs_runs n _ pre1 rem1 _ rfl rfl hn1, range_map_cons]

/-- C8. For a dispatched line (at most 32 characters, none of them zero),
`getCmd()` followed by `n` calls of `getNextArg()`, for every `n`, returns at
call number `i` (from 0, `getCmd()` being call 0) the run number `i` of the
line and null when the line has no such run, where the runs are the pieces of
the line between spaces and semicolons, the empty pieces left out.  So
`getCmd()` returns the first run or null when there is none, as for the empty
line; every token returned is non-empty and holds no space and no semicolon;
and once the runs are exhausted every further call returns null. -/
theorem getCmd_getNextArg_tokens (n : Nat) (s : ParseState) (line : List Char)
    (hlen : line.length ≤ 32) (hnul : NUL ∉ line) (hbuf : s.buffer = padded line) :
    (tokenize n s).1 = (List.range (n + 1)).map (fun i => (runs line)[i]?) ∧
      tokenOf (getCmd s) = (runs line)[0]? ∧
      (line = [] → tokenOf (getCmd s) = none) ∧
      (∀ t ∈ runs line, t ≠ [] ∧ ∀ c ∈ t, c ≠ ' ' ∧ c ≠ ';') ∧
      (∀ i, (runs line).length ≤ i → i ≤ n → (tokenize n s).1[i]? = some none) := by
  have hnul1 : ∀ c ∈ line, c ≠ NUL := fun c hc h => hnul (h ▸ hc)
  have hseq := tokenize_eq_runs n s line hlen hnul1 hbuf
  have hcmd : tokenOf (getCmd s) = (runs line)[0]? := by
    have h0 := tokenize_eq_runs 0 s line hlen hnul1 hbuf
    simp only [tokenize, nextArgs] at h0
    have h1 : (List.range (0 + 1)).map (fun i => (runs line)[i]?) = [(runs line)[0]?] := rfl
    rw [h1] at h0
    exact List.head_eq_of_cons_eq h0
  refine ⟨hseq, hcmd, ?_, fun t ht => runs_token line t ht, ?_⟩
  · intro hl
    rw [hcmd, hl, runs_nil]
    rfl
  · intro i hi hin
    rw [hseq, List.getElem?_map, List.getElem?_range (Nat.lt_succ_of_le hin)]
    simp [List.getElem?_eq_none hi]

theorem getCmd_getNextArg_tokens_witness :
    (tokenize 4 (dispatched sampleLine [] none [])).1 =
        (List.range (4 + 1)).map (fun i => (runs sampleLine)[i]?) ∧
      tokenOf (getCmd (dispatched sampleLine [] none [])) = (runs sampleLine)[0]? ∧
      (sampleLine = [] → tokenOf (getCmd (dispatched sampleLine [] none [])) = none) ∧
      (∀ t ∈ runs sampleLine, t ≠ [] ∧ ∀ c ∈ t, c ≠ ' ' ∧ c ≠ ';') ∧
      (∀ i, (runs sampleLine).length ≤ i → i ≤ 4 →
        (tokenize 4 (dispatched sampleLine [] none [])).1[i]? = some none) :=
  getCmd_getNextArg_tokens 4 (dispatched sampleLine [] none []) sampleLine
    (by decide) (by decide) rfl

/-! ## The input buffer is only read -/

theorem getCmd_frame (s : ParseState) :
    (getCmd s).2.buffer = s.buffer ∧ (getCmd s).2.tx = s.tx :=
  ⟨rfl, rfl⟩

theorem getNextArg_frame (s : ParseState) :
    (getNextArg s).2.buffer = s.buffer ∧ (getNextArg s).2.tx = s.tx := by
  unfold getNextArg
  cases s.saved with
  | none => exact ⟨rfl, rfl⟩
  | some p => exact ⟨rfl, rfl⟩

theorem nextArgs_frame (n : Nat) (s : ParseState) :
    (nextArgs n s).2.buffer = s.buffer ∧ (nextArgs n s).2.tx = s.tx := by
  induction n generalizing s with
  | zero => exact ⟨rfl, rfl⟩
  | succ n ih =>
    have h1 := ih (getNextArg s).2
    have h2 := getNextArg_frame s
    exact ⟨h1.1.trans h2.1, h1.2.trans h2.2⟩

theorem tokenize_frame (n : Nat) (s : ParseState) :
    (tokenize n s).2.buffer = s.buffer ∧ (tokenize n s).2.tx = s.tx := by
  have h1 := nextArgs_frame n (getCmd s).2
  have h2 := getCmd_frame s
  exact ⟨h1.1.trans h2.1, h1.2.trans h2.2⟩

theorem runCalls_frame (calls : List HelperCall) (s : ParseState) :
    (runCalls calls s).buffer = s.buffer ∧ (runCalls calls s).tx = s.tx := by
  induction calls generalizing s with
  | nil => exact ⟨rfl, rfl⟩
  | cons c cs ih =>
    cases c with
    | getCmd =>
      have h1 := ih (getCmd s).2
      have h2 := getCmd_frame s
      exact ⟨h1.1.trans h2.1, h1.2.trans h2.2⟩
    | getNextArg =>
      have h1 := ih (getNextArg s).2
      have h2 := getNextArg_frame s
      exact ⟨h1.1.trans h2.1, h1.2.trans h2.2⟩

/-! ## Tokenizing twice -/

theorem getNextArg_congr (s1 s2 : ParseState) (hc : s1.cmd = s2.cmd)
    (hs : s1.saved = s2.saved) :
    tokenOf (getNextArg s1) = tokenOf (getNextArg s2) ∧
      (getNextArg s1).2.cmd = (getNextArg s2).2.cmd ∧
      (getNextArg s1).2.saved = (getNextArg s2).2.saved := by
  unfold getNextArg tokenOf
  rw [hs]
  cases s2.saved with
  | none => exact ⟨rfl, hc, hs⟩
  | some p => simp only [hc, and_self]

theorem nextArgs_congr (n : Nat) (s1 s2 : ParseState) (hc : s1.cmd = s2.cmd)
    (hs : s1.saved = s2.saved) : (nextArgs n s1).1 = (nextArgs n s2).1 := by
  induction n generalizing s1 s2 with
  | zero => rfl
  | succ n ih =>
    obtain ⟨h1, h2, h3⟩ := getNextArg_congr s1 s2 hc hs
    simp only [nextArgs, h1, ih _ _ h2 h3]

theorem tokenize_congr (n : Nat) (s1 s2 : ParseState) (hb : s1.buffer = s2.buffer) :
    (tokenize n s1).1 = (tokenize n s2).1 := by
  have hcmd : (getCmd s1).2.cmd = (getCmd s2).2.cmd := by simp [getCmd, hb]
  have hsaved : (getCmd s1).2.saved = (getCmd s2).2.saved := by simp [getCmd, hb]
  have htok : tokenOf (getCmd s1) = tokenOf (getCmd s2) := by simp [tokenOf, getCmd, hb]
  simp only [tokenize, htok, nextArgs_congr n _ _ hcmd hsaved]

/-- C9. For every content of the input buffer and every state of the scratch
buffer: after a sequence `getCmd()`, `getNextArg()` × n (any n, whether or not
it exhausts the tokens), a second sequence `getCmd()`, `getNextArg()` × m
returns the same tokens as that sequence run on the state before the first
one, because the first sequence leaves the input buffer as it was and
`getCmd()` starts from a fresh copy of it. -/
theorem tokenize_twice (s : ParseState) (n m : Nat) :
    (tokenize m (tokenize n s).2).1 = (tokenize m s).1 ∧
      (tokenize n (tokenize n s).2).1 = (tokenize n s).1 ∧
      (tokenize n s).2.buffer = s.buffer :=
  ⟨tokenize_congr m _ s (tokenize_frame n s).1, tokenize_congr n _ s (tokenize_frame n s).1,
    (tokenize_frame n s).1⟩

/-! ## The acknowledgment -/

theorem cstrAt_padded (line : List Char) (hlen : line.length ≤ 32) (hnul : NUL ∉ line) :
    cstrAt (padded line) 0 = line := by
  have hnul1 : ∀ c ∈ line, c ≠ NUL := fun c hc h => hnul (h ▸ hc)
  rw [padded_eq_cstr line hlen]
  simpa [cstrAt] using takeWhile_to_NUL line (List.replicate (32 - line.length) NUL) hnul1

/-- C10. In the `parse()` of a dispatched line `L` (at most 32 characters, none
of them zero), after any sequence of calls of `getCmd()` and `getNextArg()`,
`done()` returns DONE, which is 0, what the transport has received since the
start of `parse()` is exactly `print("DONE ")` followed by `println(L)` with
the whole line `L`, and the input buffer is as at the start; in any state
`getCmd()` and `getNextArg()` leave the input buffer as it is. -/
theorem done_echoes_line (line : List Char) (s : ParseState) (calls : List HelperCall)
    (hlen : line.length ≤ 32) (hnul : NUL ∉ line) (hbuf : s.buffer = padded line) :
    (done (runCalls calls s)).1 = DONE ∧ DONE = 0 ∧
      (done (runCalls calls s)).2.tx = s.tx ++ [Write.print DONE_, Write.println line] ∧
      (done (runCalls calls s)).2.buffer = s.buffer ∧
      ∀ t : ParseState, (getCmd t).2.buffer = t.buffer ∧ (getNextArg t).2.buffer = t.buffer := by
  have hframe := runCalls_frame calls s
  refine ⟨rfl, rfl, ?_, hframe.1, fun t => ⟨(getCmd_frame t).1, (getNextArg_frame t).1⟩⟩
  simp only [done, hframe.1, hframe.2, hbuf, cstrAt_padded line hlen hnul]

theorem done_echoes_line_witness :
    (done (runCalls [HelperCall.getCmd, HelperCall.getNextArg, HelperCall.getNextArg]
        (dispatched sampleLine [] none []))).1 = DONE ∧ DONE = 0 ∧
      (done (runCalls [HelperCall.getCmd, HelperCall.getNextArg, HelperCall.getNextArg]
        (dispatched sampleLine [] none []))).2.tx =
          (dispatched sampleLine [] none []).tx ++
            [Write.print DONE_, Write.println sampleLine] ∧
      (done (runCalls [HelperCall.getCmd, HelperCall.getNextArg, HelperCall.getNextArg]
        (dispatched sampleLine [] none []))).2.buffer =
          (dispatched sampleLine [] none []).buffer ∧
      ∀ t : ParseState, (getCmd t).2.buffer = t.buffer ∧ (getNextArg t).2.buffer = t.buffer :=
  done_echoes_line sampleLine (dispatched sampleLine [] none [])
    [HelperCall.getCmd, HelperCall.getNextArg, HelperCall.getNextArg]
    (by decide) (by decide) rfl

/-! ## Pin arguments -/

theorem atoiDigits_eq (d : List Char) (acc : Nat) (hd : ∀ c ∈ d, isDigit c = true) :
    atoiDigits d acc = acc * 10 ^ d.length + decimalValue d := by
  induction d generalizing acc with
  | nil => simp [atoiDigits, decimalValue]
  | cons c cs ih =>
    have hc : isDigit c = true := hd c (by simp)
    have hcs : ∀ x ∈ cs, isDigit x = true := fun x hx => hd x (by simp [hx])
    have hval : decimalValue (c :: cs) = decimalValue cs + 10 ^ cs.length * digitOf c := by
      simp [decimalValue, Nat.ofDigits_append]
    rw [hval]
    simp only [atoiDigits, hc, if_true, ih _ hcs, List.length_cons]
    ring

theorem toInt16_of_le (n : Nat) (h : n ≤ 32767) : toInt16 (n : Int) = n := by
  unfold toInt16
  omega

/-- On a string of digits whose value fits `int`, `atoi` gives that value. -/
theorem atoi_digits (d : List Char) (hd : ∀ c ∈ d, isDigit c = true)
    (hmax : decimalValue d ≤ 32767) : atoi d = decimalValue d := by
  have hval := atoiDigits_eq d 0 hd
  simp only [Nat.zero_mul, Nat.zero_add] at hval
  cases d with
  | nil => rfl
  | cons c cs =>
    have hc : isDigit c = true := hd c (by simp)
    have hrange : 48 ≤ c.toNat ∧ c.toNat ≤ 57 := by
      simpa [isDigit] using hc
    have hsp : isSpace c = false := by
      simp only [isSpace, Bool.or_eq_false_iff, beq_eq_false_iff_ne, Bool.and_eq_false_iff,
        decide_eq_false_iff_not]
      omega
    unfold atoi
    simp only [List.dropWhile, hsp]
    split
    · rename_i r h
      have hcm : c = '-' := (List.cons.inj h).1
      rw [hcm] at hrange
      exact absurd hrange (by decide)
    · rename_i r h
      have hcm : c = '+' := (List.cons.inj h).1
      rw [hcm] at hrange
      exact absurd hrange (by decide)
    · rw [hval, toInt16_of_le _ hmax]

theorem digits_head_ne_A (d rest : List Char) (hd : ∀ c ∈ d, isDigit c = true) :
    d ≠ 'A' :: rest := by
  intro h
  have hA : isDigit 'A' = true := hd 'A' (by simp [h])
  exact absurd hA (by decide)

/-- C11. For every string `d` of decimal digits whose value `n` fits `int`
(16 bits: at most 32767) and every board mapping `analogInputToDigitalPin`:
`getDPin("A" ++ d)` is `analogInputToDigitalPin(n)` and `getDPin(d)` is `n`.
The string need not be non-empty for this. -/
theorem getDPin_digits (analogInputToDigitalPin : Int → Int) (d : List Char)
    (hd : ∀ c ∈ d, isDigit c = true) (hmax : decimalValue d ≤ 32767) :
    getDPin analogInputToDigitalPin (some ('A' :: d)) =
        analogInputToDigitalPin (decimalValue d) ∧
      getDPin analogInputToDigitalPin (some d) = decimalValue d := by
  refine ⟨?_, ?_⟩
  · simp only [getDPin, atoi_digits d hd hmax]
  · unfold getDPin
    split
    · rename_i h
      exact absurd h (by simp)
    · rename_i rest h
      exact absurd (Option.some.inj h) (digits_head_ne_A d rest hd)
    · rename_i s h1 h2
      have hs : s = d := (Option.some.inj h2).symm
      rw [hs]
      exact atoi_digits d hd hmax

theorem getDPin_digits_witness :
    getDPin unoAnalogInputToDigitalPin (some ('A' :: ['3'])) =
        unoAnalogInputToDigitalPin (decimalValue ['3']) ∧
      getDPin unoAnalogInputToDigitalPin (some ['3']) = decimalValue ['3'] :=
  getDPin_digits unoAnalogInputToDigitalPin ['3'] (by decide) (by decide)

/-- C12, on the empty token: `getDPin("")` and `getAPin("")` are not -1; the
pointer is not null, the first character is not `A`, and `atoi("")` is 0. -/
theorem getDPin_getAPin_empty_not_sentinel :
    getDPin unoAnalogInputToDigitalPin (some []) ≠ -1 ∧ getAPin (some []) ≠ -1 := by
  decide

/-- C12, amended. `getDPin` and `getAPin` return the sentinel -1 when the token
is absent (a null pointer); on the empty token both return 0. -/
theorem getDPin_getAPin_absent (analogInputToDigitalPin : Int → Int) :
    getDPin analogInputToDigitalPin none = -1 ∧ getAPin none = -1 ∧
      getDPin analogInputToDigitalPin (some []) = 0 ∧ getAPin (some []) = 0 :=
  ⟨rfl, rfl, rfl, rfl⟩

/-- C13. For every string `d` of decimal digits whose value `n` fits `int`
(16 bits: at most 32767): `getAPin("A" ++ d)` and `getAPin(d)` are both `n`; no
board mapping enters `getAPin`. -/
theorem getAPin_digits (d : List Char) (hd : ∀ c ∈ d, isDigit c = true)
    (hmax : decimalValue d ≤ 32767) :
    getAPin (some ('A' :: d)) = decimalValue d ∧ getAPin (some d) = decimalValue d ∧
      getAPin (some ('A' :: d)) = getAPin (some d) := by
  have h1 : getAPin (some ('A' :: d)) = decimalValue d := by
    simp only [getAPin, atoi_digits d hd hmax]
  have h2 : getAPin (some d) = decimalValue d := by
    unfold getAPin
    split
    · rename_i h
      exact absurd h (by simp)
    · rename_i rest h
      exact absurd (Option.some.inj h) (digits_head_ne_A d rest hd)
    · rename_i s h1 h2
      have hs : s = d := (Option.some.inj h2).symm
      rw [hs]
      exact atoi_digits d hd hmax
  exact ⟨h1, h2, h1.trans h2.symm⟩

theorem getAPin_digits_witness :
    getAPin (some ('A' :: ['3'])) = decimalValue ['3'] ∧
      getAPin (some ['3']) = decimalValue ['3'] ∧
      getAPin (some ('A' :: ['3'])) = getAPin (some ['3']) :=
  getAPin_digits ['3'] (by decide) (by decide)

/-- C14, evaluated in a handler of the line `R A3` on a board with the standard
mapping: `GET_APIN(v)` declares `v` as 17, the digital pin of analog input 3,
where `getAPin` gives 3 for the same token. -/
theorem GET_APIN_binds_digital_pin :
    (GET_APIN unoAnalogInputToDigitalPin
        (getCmd (dispatched ['R', ' ', 'A', '3'] [] none [])).2).value = some 17 ∧
      getAPin (some ['A', '3']) = 3 := by
  decide

/-- C15, evaluated in a handler of the line `W foo`: whatever the board
mapping, `GET_DPIN(v)` does not return; it declares `v` as 0 and the handler
goes on with pin 0. -/
theorem GET_DPIN_proceeds_on_unparseable (analogInputToDigitalPin : Int → Int) :
    (GET_DPIN analogInputToDigitalPin
        (getCmd (dispatched ['W', ' ', 'f', 'o', 'o'] [] none [])).2).value = some 0 := by
  rfl

/-! ## A `parse()` written with the macros -/

theorem COMP_iff (v c : List Char) : COMP v c = true ↔ v = c := by
  simp [COMP]

theorem assocLines_no_match (expand : List Char → List Char) (cmd : List Char) (i : Nat)
    (assocs : List (List Char × Handler)) (s : ParseState)
    (h : ∀ cf ∈ assocs, expand cf.1 ≠ cmd) :
    assocLines expand cmd i assocs s = ⟨[], NEXT, s⟩ := by
  induction assocs generalizing i with
  | nil => rfl
  | cons cf rest ih =>
    obtain ⟨c, f⟩ := cf
    have hc : COMP cmd (expand c) = false := by
      have hne : expand c ≠ cmd := h (c, f) (by simp)
      cases hb : COMP cmd (expand c) with
      | false => rfl
      | true => exact absurd ((COMP_iff cmd (expand c)).mp hb).symm hne
    have hrest : ∀ cf ∈ rest, expand cf.1 ≠ cmd := fun cf hcf => h cf (by simp [hcf])
    simp only [assocLines, hc, Bool.false_eq_true, if_false]
    exact ih (i + 1) hrest

theorem assocLines_first_match (expand : List Char → List Char) (cmd : List Char) (i k : Nat)
    (assocs : List (List Char × Handler)) (s : ParseState) (c : List Char) (f : Handler)
    (hk : assocs[k]? = some (c, f)) (hc : expand c = cmd)
    (hbefore : ∀ j c1 f1, j < k → assocs[j]? = some (c1, f1) → expand c1 ≠ cmd) :
    assocLines expand cmd i assocs s = ⟨[i + k], (f s).1, (f s).2⟩ := by
  induction assocs generalizing i k with
  | nil => simp at hk
  | cons cf rest ih =>
    obtain ⟨c0, f0⟩ := cf
    cases k with
    | zero =>
      have h0 : (c0, f0) = (c, f) := by simpa using hk
      have hc0 : c0 = c := (Prod.mk.inj h0).1
      have hf0 : f0 = f := (Prod.mk.inj h0).2
      have hcomp : COMP cmd (expand c0) = true :=
        (COMP_iff cmd (expand c0)).mpr (by rw [hc0, hc])
      simp only [assocLines, hcomp, if_true, hf0, Nat.add_zero]
    | succ k =>
      have hne : expand c0 ≠ cmd := hbefore 0 c0 f0 (Nat.succ_pos k) (by simp)
      have hcomp : COMP cmd (expand c0) = false := by
        cases hb : COMP cmd (expand c0) with
        | false => rfl
        | true => exact absurd ((COMP_iff cmd (expand c0)).mp hb).symm hne
      have hk1 : rest[k]? = some (c, f) := by simpa using hk
      have hb1 : ∀ j c1 f1, j < k → rest[j]? = some (c1, f1) → expand c1 ≠ cmd :=
        fun j c1 f1 hj hj1 => hbefore (j + 1) c1 f1 (Nat.succ_lt_succ hj) (by simpa using hj1)
      simp only [assocLines, hcomp, Bool.false_eq_true, if_false]
      rw [ih (i + 1) k hk1 hb1]
      have : i + 1 + k = i + (k + 1) := by omega
      rw [this]

theorem parseMacros_of_none (expand : List Char → List Char)
    (assocs : List (List Char × Handler)) (s : ParseState)
    (h : tokenOf (getCmd s) = none) :
    parseMacros expand assocs s = ⟨[], NEXT, (getCmd s).2⟩ := by
  simp only [parseMacros, h]

theorem parseMacros_of_some (expand : List Char → List Char)
    (assocs : List (List Char × Handler)) (s : ParseState)
    (cmd : List Char) (h : tokenOf (getCmd s) = some cmd) :
    parseMacros expand assocs s = assocLines expand cmd 0 assocs (getCmd s).2 := by
  simp only [parseMacros, h]

/-- What a `parse()` made of `BEGIN_PARSE`, `ASSOC(c1,f1)` ... `ASSOC(ck,fk)`,
`END_PARSE` does, in any state of the buffers.  When `getCmd()` finds no command
token, it returns NEXT and calls no handler.  When the command token is `cmd`:
if the `ASSOC` line number `k` is the first whose command name, after the
replacement of macros, equals `cmd` (equality of the whole strings, character
by character), then exactly the handler of that line is called, once, on the
state left by `getCmd()`, and its return code and final state are those of
`parse()`; if no command name so replaced equals `cmd`, it returns NEXT and
calls no handler. -/
theorem parseMacros_dispatch (expand : List Char → List Char)
    (assocs : List (List Char × Handler)) (s : ParseState) :
    (tokenOf (getCmd s) = none →
        (parseMacros expand assocs s).called = [] ∧
          (parseMacros expand assocs s).code = NEXT) ∧
      ∀ cmd, tokenOf (getCmd s) = some cmd →
        (∀ k c f, assocs[k]? = some (c, f) → expand c = cmd →
          (∀ j c1 f1, j < k → assocs[j]? = some (c1, f1) → expand c1 ≠ cmd) →
            (parseMacros expand assocs s).called = [k] ∧
            (parseMacros expand assocs s).code = (f (getCmd s).2).1 ∧
            (parseMacros expand assocs s).state = (f (getCmd s).2).2) ∧
        ((∀ cf ∈ assocs, expand cf.1 ≠ cmd) →
          (parseMacros expand assocs s).called = [] ∧
            (parseMacros expand assocs s).code = NEXT) := by
  refine ⟨?_, ?_⟩
  · intro h
    rw [parseMacros_of_none expand assocs s h]
    exact ⟨rfl, rfl⟩
  · intro cmd h
    rw [parseMacros_of_some expand assocs s cmd h]
    refine ⟨?_, ?_⟩
    · intro k c f hk hc hbefore
      rw [assocLines_first_match expand cmd 0 k assocs _ c f hk hc hbefore]
      exact ⟨by simp, rfl, rfl⟩
    · intro hnone
      rw [assocLines_no_match expand cmd 0 assocs _ hnone]
      exact ⟨rfl, rfl⟩

/-- Where no command name of the `ASSOC` lines is changed by the replacement
of macros, the comparison is with the command names as written: the first
line whose command name equals the command token has its handler called, and
no handler is called when there is none. -/
theorem parseMacros_dispatch_plain (expand : List Char → List Char)
    (assocs : List (List Char × Handler)) (s : ParseState)
    (hplain : ∀ cf ∈ assocs, expand cf.1 = cf.1) (cmd : List Char)
    (hcmd : tokenOf (getCmd s) = some cmd) :
    (∀ k c f, assocs[k]? = some (c, f) → c = cmd →
        (∀ j c1 f1, j < k → assocs[j]? = some (c1, f1) → c1 ≠ cmd) →
          (parseMacros expand assocs s).called = [k] ∧
          (parseMacros expand assocs s).code = (f (getCmd s).2).1 ∧
          (parseMacros expand assocs s).state = (f (getCmd s).2).2) ∧
      ((∀ cf ∈ assocs, cf.1 ≠ cmd) →
        (parseMacros expand assocs s).called = [] ∧
          (parseMacros expand assocs s).code = NEXT) := by
  have hgen := (parseMacros_dispatch expand assocs s).2 cmd hcmd
  refine ⟨?_, ?_⟩
  · intro k c f hk hc hbefore
    have hmem : (c, f) ∈ assocs := List.getElem?_mem hk
    refine hgen.1 k c f hk ((hplain (c, f) hmem).trans hc) ?_
    intro j c1 f1 hj hj1
    have hmem1 : (c1, f1) ∈ assocs := List.getElem?_mem hj1
    rw [hplain (c1, f1) hmem1]
    exact hbefore j c1 f1 hj hj1
  · intro hnone
    refine hgen.2 ?_
    intro cf hcf
    rw [hplain cf hcf]
    exact hnone cf hcf

theorem parseMacros_dispatch_sample :
    (parseMacros (expandWith valueMacros) sampleAssocs
        (dispatched sampleLine [] none [])).called = [1] ∧
      (parseMacros (expandWith valueMacros) sampleAssocs
        (dispatched sampleLine [] none [])).code =
        (done (getCmd (dispatched sampleLine [] none [])).2).1 ∧
      (parseMacros (expandWith valueMacros) sampleAssocs
        (dispatched sampleLine [] none [])).state =
        (done (getCmd (dispatched sampleLine [] none [])).2).2 :=
  ((parseMacros_dispatch (expandWith valueMacros) sampleAssocs
      (dispatched sampleLine [] none [])).2
      ['L', 'E', 'D'] (by decide)).1 1 ['L', 'E', 'D'] done rfl (by decide)
    (by
      intro j c1 f1 hj h
      have hj0 : j = 0 := by omega
      subst hj0
      have h0 : (['T', 'E', 'M', 'P'], fun s => (next, s)) = (c1, f1) := by
        simpa [sampleAssocs] using h
      rw [← (Prod.mk.inj h0).1]
      decide)

/-- C16, evaluated on the `parse()` made of `BEGIN_PARSE`, `ASSOC(DONE,ack)`,
`END_PARSE`, with the macros of `ShellPlugin.h`.  On the request line `DONE`,
whose command token is the command name of the `ASSOC` line, no handler is
called and NEXT is returned; on the request line `0` the handler is called and
its DONE is returned: `ASSOC` hands its argument on to `COMP`, so `DONE` is
replaced by `0` before `COMP` makes the literal.  `COMP` used directly with the
same name compares with `DONE` as written.  With this plugin alone in the
chain, `process()` answers the request `DONE` with `UNKNOWN`. -/
theorem ASSOC_compares_replaced_name :
    (parseMacros (expandWith valueMacros) doneAssocs
        (dispatched ['D', 'O', 'N', 'E'] [] none [])).called = [] ∧
      (parseMacros (expandWith valueMacros) doneAssocs
        (dispatched ['D', 'O', 'N', 'E'] [] none [])).code = NEXT ∧
      (process [macroPlugin (expandWith valueMacros) doneAssocs]
        (idle (['D', 'O', 'N', 'E'] ++ [CR]))).tx = [Write.println UNKNOWN] ∧
      (parseMacros (expandWith valueMacros) doneAssocs
        (dispatched ['0'] [] none [])).called = [0] ∧
      (parseMacros (expandWith valueMacros) doneAssocs
        (dispatched ['0'] [] none [])).code = DONE ∧
      COMP ['D', 'O', 'N', 'E'] ['D', 'O', 'N', 'E'] = true := by
  decide

/-! ## Several lines on the transport -/

theorem isEmpty_false_of_ne_nil (chain : List Plugin) (h : chain ≠ []) :
    chain.isEmpty = false := by
  cases chain with
  | nil => exact absurd rfl h
  | cons p ps => rfl

/-- One iteration on a line that fits, whatever follows its CR. -/
theorem processLine_valid (chain : List Plugin) (line rest : List Char) (s : Shell)
    (hchain : chain ≠ []) (hlen : line.length ≤ 32) (hcr : CR ∉ line)
    (hrx : s.rx = line ++ CR :: rest) :
    processLine chain s =
      { rx := rest
        tx := s.tx ++ lineWrites chain line
        buffer := padded line
        calls := s.calls ++ lineCalls chain line } := by
  have hread : readBytesUntil CR bufSize s.rx = (line, rest) := by
    rw [hrx]
    exact readBytesUntil_line CR bufSize line rest (Nat.lt_succ_of_le hlen) hcr
  unfold processLine
  simp only [hread, store_memsetBuffer, padded_last line hlen,
    isEmpty_false_of_ne_nil chain hchain, and_self, if_true, lineWrites, lineCalls,
    List.append_assoc]

/-- The loop of `process()`, unrolled once. -/
theorem process_step (chain : List Plugin) (s : Shell) (h : s.rx ≠ []) :
    process chain s = process chain (processLine chain s) := by
  have hlt := processLine_rx_lt chain s h
  unfold process
  cases hn : s.rx.length with
  | zero => exact absurd (List.length_eq_zero.mp hn) h
  | succ n =>
    have he : s.rx.isEmpty = false := by
      cases hrx : s.rx with
      | nil => exact absurd hrx h
      | cons c rx => rfl
    simp only [processLoop, he]
    exact processLoop_fuel chain n _ (processLine chain s) (by omega) (Nat.le_refl _)

theorem wire_cons (l : List Char) (ls : List (List Char)) :
    wire (l :: ls) = l ++ CR :: wire ls := by
  simp [wire]

/-- One call of `process()` with several lines pending: the lines are
dispatched one after the other, each from a buffer holding it alone. -/
theorem process_wire (chain : List Plugin) (lines : List (List Char)) (s : Shell)
    (hchain : chain ≠ []) (hlines : ∀ l ∈ lines, l.length ≤ 32 ∧ CR ∉ l)
    (hrx : s.rx = wire lines) :
    (process chain s).calls = s.calls ++ (lines.map (lineCalls chain)).flatten ∧
      (process chain s).tx = s.tx ++ (lines.map (lineWrites chain)).flatten := by
  induction lines generalizing s with
  | nil =>
    have h : s.rx = [] := hrx
    unfold process
    rw [processLoop_of_rx_nil chain _ s h]
    simp
  | cons l ls ih =>
    have hl := hlines l (by simp)
    have hls : ∀ x ∈ ls, x.length ≤ 32 ∧ CR ∉ x := fun x hx => hlines x (by simp [hx])
    have hrx1 : s.rx = l ++ CR :: wire ls := by rw [hrx, wire_cons]
    have hne : s.rx ≠ [] := by simp [hrx1]
    have hline := processLine_valid chain l (wire ls) s hchain hl.1 hl.2 hrx1
    rw [process_step chain s hne]
    have h1 := ih (processLine chain s) hls (by rw [hline])
    rw [h1.1, h1.2, hline]
    simp [List.append_assoc]

/-- Several calls of `process()`, whole lines having arrived before each. -/
theorem processCalls_wire (chain : List Plugin) (groups : List (List (List Char)))
    (s : Shell) (hchain : chain ≠ [])
    (hlines : ∀ g ∈ groups, ∀ l ∈ g, l.length ≤ 32 ∧ CR ∉ l) (hrx : s.rx = []) :
    (processCalls chain (groups.map wire) s).calls =
        s.calls ++ (groups.flatten.map (lineCalls chain)).flatten ∧
      (processCalls chain (groups.map wire) s).tx =
        s.tx ++ (groups.flatten.map (lineWrites chain)).flatten := by
  induction groups generalizing s with
  | nil => simp [processCalls]
  | cons g gs ih =>
    have hg := hlines g (by simp)
    have hgs : ∀ x ∈ gs, ∀ l ∈ x, l.length ≤ 32 ∧ CR ∉ l :=
      fun x hx => hlines x (by simp [hx])
    have h1 := process_wire chain g { s with rx := s.rx ++ wire g } hchain hg (by simp [hrx])
    have h2 := ih (process chain { s with rx := s.rx ++ wire g }) hgs (process_rx chain _)
    simp only [List.map_cons, processCalls]
    rw [h2.1, h2.2, h1.1, h1.2]
    simp [List.append_assoc]

theorem walk_plugin_ge (buf : List Char) (chain : List Plugin) (i : Nat) :
    ∀ c ∈ (walk buf i chain).calls, i ≤ c.plugin := by
  induction chain generalizing i with
  | nil => simp [walk]
  | cons p ps ih =>
    intro c hc
    simp only [walk] at hc
    split at hc
    · simp only [List.mem_singleton] at hc
      rw [hc]
    · rcases List.mem_cons.mp hc with rfl | hmem
      · exact Nat.le_refl _
      · exact Nat.le_of_succ_le (ih (i + 1) c hmem)

/-- In the invocations of one dispatch, the only one of plugin 0 is the first,
and it sees the padded line. -/
theorem lineCalls_heads (chain : List Plugin) (line : List Char) (hchain : chain ≠ []) :
    (lineCalls chain line).filter (fun c => c.plugin == 0) = [⟨0, padded line⟩] := by
  cases chain with
  | nil => exact absurd rfl hchain
  | cons p ps =>
    have htail : (walk (padded line) 1 ps).calls.filter (fun c => c.plugin == 0) = [] := by
      rw [List.filter_eq_nil_iff]
      intro c hc
      have := walk_plugin_ge (padded line) ps 1 c hc
      simp only [beq_iff_eq]
      omega
    simp only [lineCalls, walk]
    split
    · rfl
    · simp [List.filter_cons, htail]

theorem heads_of_lines (chain : List Plugin) (lines : List (List Char)) (hchain : chain ≠ []) :
    (((lines.map (lineCalls chain)).flatten).filter (fun c => c.plugin == 0)).map
      Call.buffer = lines.map padded := by
  induction lines with
  | nil => rfl
  | cons l ls ih =>
    simp only [List.map_cons, List.flatten_cons, List.filter_append, List.map_append,
      lineCalls_heads chain l hchain, ih, List.singleton_append]

/-- C17. Request lines of at most 32 characters (no CR), each followed by CR,
handed to a non-empty chain in one or several calls of `process()` (`groups`
lists the lines that have arrived before each call, nothing pending at the
start).  The invocations made are, line by line in arrival order, those of the
dispatch of that line alone; the invocations of the chain head, one per line,
see in this order the buffers `line ++ zero bytes`, each line padded from a
cleared buffer, and every other invocation of a dispatch sees the same buffer
as its head: nothing of an earlier line is left. -/
theorem process_no_residue (chain : List Plugin) (groups : List (List (List Char)))
    (s : Shell) (hchain : chain ≠ [])
    (hlines : ∀ g ∈ groups, ∀ l ∈ g, l.length ≤ 32 ∧ CR ∉ l) (hrx : s.rx = []) :
    (processCalls chain (groups.map wire) s).calls =
        s.calls ++ (groups.flatten.map (lineCalls chain)).flatten ∧
      ((((processCalls chain (groups.map wire) s).calls.drop s.calls.length).filter
        (fun c => c.plugin == 0)).map Call.buffer = groups.flatten.map padded) ∧
      (∀ l, ∀ c ∈ lineCalls chain l, c.buffer = padded l) ∧
      (processCalls chain (groups.map wire) s).tx =
        s.tx ++ (groups.flatten.map (lineWrites chain)).flatten := by
  have h := processCalls_wire chain groups s hchain hlines hrx
  refine ⟨h.1, ?_, fun l c hc => walk_calls_buffer (padded l) chain 0 c hc, h.2⟩
  rw [h.1, List.drop_left]
  exact heads_of_lines chain groups.flatten hchain

theorem process_no_residue_witness :
    (processCalls [declining, accepting]
        ([[sampleLine, ['L', 'E', 'D']], [['x']]].map wire) (idle [])).calls =
        (idle []).calls ++
          ([[sampleLine, ['L', 'E', 'D']], [['x']]].flatten.map
            (lineCalls [declining, accepting])).flatten ∧
      ((((processCalls [declining, accepting]
        ([[sampleLine, ['L', 'E', 'D']], [['x']]].map wire) (idle [])).calls.drop
          (idle []).calls.length).filter
        (fun c => c.plugin == 0)).map Call.buffer =
          [[sampleLine, ['L', 'E', 'D']], [['x']]].flatten.map padded) ∧
      (∀ l, ∀ c ∈ lineCalls [declining, accepting] l, c.buffer = padded l) ∧
      (processCalls [declining, accepting]
        ([[sampleLine, ['L', 'E', 'D']], [['x']]].map wire) (idle [])).tx =
        (idle []).tx ++
          ([[sampleLine, ['L', 'E', 'D']], [['x']]].flatten.map
            (lineWrites [declining, accepting])).flatten :=
  process_no_residue [declining, accepting] [[sampleLine, ['L', 'E', 'D']], [['x']]]
    (idle []) (by simp) (by decide) rfl

/-! ## Termination -/

theorem walk_plugins (buf : List Char) (chain : List Plugin) (i : Nat) :
    ∃ k, k ≤ chain.length ∧
      (walk buf i chain).calls.map Call.plugin = List.range' i k := by
  induction chain generalizing i with
  | nil => exact ⟨0, Nat.le_refl _, rfl⟩
  | cons p ps ih =>
    simp only [walk]
    split
    · exact ⟨1, by simp, rfl⟩
    · obtain ⟨k, hk, hcalls⟩ := ih (i + 1)
      refine ⟨k + 1, by simpa using hk, ?_⟩
      simp only [List.map_cons, hcalls]
      rfl

/-- C19. For every chain (a finite list of plugins whose `parse()` return) and
every finite sequence of pending bytes: `process()` returns, and on return
nothing is pending on the transport; allowing the loop more iterations than
there are pending bytes changes nothing, it has left by its own condition;
every iteration of the outer loop leaves fewer bytes pending than it found;
and the chain walk of one line invokes the plugins number 0, 1, ..., k-1 for
some k not above the length of the chain, each of them once. -/
theorem process_terminates (chain : List Plugin) (s : Shell) :
    (process chain s).rx = [] ∧
      (∀ fuel, s.rx.length ≤ fuel → processLoop chain fuel s = process chain s) ∧
      (∀ t : Shell, t.rx ≠ [] → (processLine chain t).rx.length < t.rx.length) ∧
      ∀ buffer, ∃ k, k ≤ chain.length ∧
        (walk buffer 0 chain).calls.map Call.plugin = List.range k ∧
        ((walk buffer 0 chain).calls.map Call.plugin).Nodup := by
  refine ⟨process_rx chain s, ?_, fun t ht => processLine_rx_lt chain t ht, ?_⟩
  · intro fuel hfuel
    exact processLoop_fuel chain fuel _ s hfuel (Nat.le_refl _)
  · intro buffer
    obtain ⟨k, hk, hcalls⟩ := walk_plugins buffer chain 0
    have hrange : List.range' 0 k = List.range k := (List.range_eq_range' (n := k)).symm
    rw [hrange] at hcalls
    exact ⟨k, hk, hcalls, hcalls ▸ List.nodup_range k⟩

/-! ## Return codes other than DONE and NEXT -/

theorem walk_asNext (buf : List Char) (chain : List Plugin)
    (h : ∀ p ∈ chain, (p.parse buf).1 ≠ 0) :
    walk buf 0 (chain.map asNext) = walk buf 0 chain := by
  have hnext : ∀ p ∈ chain.map asNext, (p.parse buf).1 ≠ 0 := by
    intro p hp
    obtain ⟨q, _, rfl⟩ := List.mem_map.mp hp
    simp only [asNext, NEXT]
    decide
  have hfun : (fun p : Plugin => (p.parse buf).2) ∘ asNext = fun p => (p.parse buf).2 := rfl
  rw [walk_all_decline buf (chain.map asNext) 0 hnext, walk_all_decline buf chain 0 h]
  simp [List.map_map, hfun]

/-- C20. A line of at most 32 characters (no CR) followed by CR and a non-empty
chain.  The walk stops at the first plugin whose `parse()` returns exactly 0:
when plugin number `k` returns 0 and every earlier one returns anything else,
the plugins 0 to `k` are invoked in order and `process()` adds nothing to
their writes.  When every plugin returns a code other than 0, whatever it is,
every plugin is invoked once in order, `UNKNOWN` is written after their
writes, and the whole outcome is that of the chain in which every return
code is replaced by NEXT. -/
theorem process_nonzero_is_decline (chain : List Plugin) (line : List Char) (s : Shell)
    (hchain : chain ≠ []) (hlen : line.length ≤ 32) (hcr : CR ∉ line)
    (hrx : s.rx = line ++ [CR]) :
    (∀ k pk, chain[k]? = some pk → (pk.parse (padded line)).1 = 0 →
        (∀ j p, j < k → chain[j]? = some p → (p.parse (padded line)).1 ≠ 0) →
        (process chain s).calls =
            s.calls ++ (List.range (k + 1)).map (fun j => ⟨j, padded line⟩) ∧
          (process chain s).tx =
            s.tx ++ ((chain.take (k + 1)).map (fun p => (p.parse (padded line)).2)).flatten) ∧
      ((∀ p ∈ chain, (p.parse (padded line)).1 ≠ 0) →
        (process chain s).calls =
            s.calls ++ (List.range chain.length).map (fun j => ⟨j, padded line⟩) ∧
          (process chain s).tx =
            s.tx ++ (chain.map (fun p => (p.parse (padded line)).2)).flatten ++
              [Write.println UNKNOWN] ∧
          process chain s = process (chain.map asNext) s) := by
  refine ⟨?_, ?_⟩
  · intro k pk hk hzero hbefore
    rw [process_single_line chain line s hchain hlen hcr hrx,
      walk_first_done (padded line) chain 0 k pk hk hzero hbefore]
    simp
  · intro hall
    have hmap : chain.map asNext ≠ [] := by simpa using hchain
    refine ⟨?_, ?_, ?_⟩
    · rw [process_single_line chain line s hchain hlen hcr hrx,
        walk_all_decline (padded line) chain 0 hall]
      simp
    · rw [process_single_line chain line s hchain hlen hcr hrx,
        walk_all_decline (padded line) chain 0 hall]
      simp
    · rw [process_single_line chain line s hchain hlen hcr hrx,
        process_single_line (chain.map asNext) line s hmap hlen hcr hrx,
        walk_asNext (padded line) chain hall]

theorem process_nonzero_is_decline_witness :
    (process [returningFive, declining] (idle (sampleLine ++ [CR]))).calls =
        (idle (sampleLine ++ [CR])).calls ++
          (List.range [returningFive, declining].length).map
            (fun j => ⟨j, padded sampleLine⟩) ∧
      (process [returningFive, declining] (idle (sampleLine ++ [CR]))).tx =
        (idle (sampleLine ++ [CR])).tx ++
          ([returningFive, declining].map
            (fun p => (p.parse (padded sampleLine)).2)).flatten ++
          [Write.println UNKNOWN] ∧
      process [returningFive, declining] (idle (sampleLine ++ [CR])) =
        process ([returningFive, declining].map asNext) (idle (sampleLine ++ [CR])) :=
  (process_nonzero_is_decline [returningFive, declining] sampleLine
    (idle (sampleLine ++ [CR])) (by simp) (by decide) (by decide) rfl).2
    (by
      intro p hp
      simp only [List.mem_cons, List.mem_singleton, List.not_mem_nil, or_false] at hp
      rcases hp with rfl | rfl <;> decide)

/-! ## Lines of delimiters -/

theorem readBytesUntil_full (t : Char) (n : Nat) (chunk rest : List Char)
    (hlen : chunk.length = n) (ht : t ∉ chunk) :
    readBytesUntil t n (chunk ++ rest) = (chunk, rest) := by
  induction chunk generalizing n with
  | nil =>
    have : n = 0 := by simpa using hlen.symm
    subst this
    rfl
  | cons c chunk ih =>
    cases n with
    | zero => simp at hlen
    | succ n =>
      have hc : c ≠ t := fun h => ht (by simp [h])
      have ht1 : t ∉ chunk := fun h => ht (by simp [h])
      have hlen1 : chunk.length = n := by simpa using hlen
      simp [readBytesUntil, hc, ih n hlen1 ht1]

theorem isDelim_CR : isDelim CR = false := by decide

theorem delims_no_CR (l : List Char) (h : ∀ c ∈ l, isDelim c = true) : CR ∉ l := by
  intro hmem
  have := h CR hmem
  rw [isDelim_CR] at this
  exact Bool.noConfusion this

theorem delims_last_cell (chunk : List Char) (hlen : chunk.length = 33)
    (h : ∀ c ∈ chunk, isDelim c = true) : chunk.getD strSize NUL ≠ NUL := by
  have hlt : strSize < chunk.length := by
    rw [hlen]
    decide
  rw [List.getD_eq_getElem _ _ hlt]
  intro hnul
  have := h _ (List.getElem_mem hlt)
  rw [hnul, isDelim_NUL] at this
  exact Bool.noConfusion this

/-- One iteration on 33 delimiters with more of the line behind them: the
buffer is full, its last cell is not zero, nothing is dispatched. -/
theorem processLine_full_of_delims (chain : List Plugin) (chunk rest : List Char) (s : Shell)
    (hlen : chunk.length = 33) (h : ∀ c ∈ chunk, isDelim c = true)
    (hrx : s.rx = chunk ++ rest) :
    processLine chain s = { rx := rest, tx := s.tx, buffer := chunk, calls := s.calls } := by
  have hread : readBytesUntil CR bufSize s.rx = (chunk, rest) := by
    rw [hrx]
    exact readBytesUntil_full CR bufSize chunk rest hlen (delims_no_CR chunk h)
  have hstore : store chunk memsetBuffer = chunk := by
    simp [store, memsetBuffer, hlen, bufSize]
  unfold processLine
  simp only [hread, hstore, delims_last_cell chunk hlen h, false_and, if_false]

/-- A chain whose plugins decline without writing on every buffer that holds
delimiters only: a line of delimiters, of any length, followed by CR, ends
in one dispatch of what is left of it after the full buffers were dropped,
and in `UNKNOWN`. -/
theorem process_delims (chain : List Plugin) (hchain : chain ≠ [])
    (hdecl : ∀ tail : List Char, (∀ c ∈ tail, isDelim c = true) → tail.length ≤ 32 →
      ∀ p ∈ chain, p.parse (padded tail) = (NEXT, []))
    (n : Nat) (line : List Char) (s : Shell) (hn : line.length = n)
    (hdel : ∀ c ∈ line, isDelim c = true) (hrx : s.rx = line ++ [CR]) :
    (process chain s).tx = s.tx ++ [Write.println UNKNOWN] ∧
      (process chain s).calls =
        s.calls ++ (List.range chain.length).map
          (fun j => ⟨j, padded (line.drop (33 * (n / 33)))⟩) := by
  induction n using Nat.strong_induction_on generalizing line s with
  | _ n ih =>
    by_cases hfit : n ≤ 32
    · have hzero : 33 * (n / 33) = 0 := by omega
      rw [hzero, List.drop_zero]
      have hlen : line.length ≤ 32 := hn ▸ hfit
      have hcodes : ∀ p ∈ chain, (p.parse (padded line)).1 ≠ 0 := by
        intro p hp
        rw [hdecl line hdel hlen p hp]
        decide
      have hwrites : (chain.map (fun p => (p.parse (padded line)).2)).flatten = [] := by
        rw [List.flatten_eq_nil_iff]
        intro l hl
        obtain ⟨p, hp, rfl⟩ := List.mem_map.mp hl
        rw [hdecl line hdel hlen p hp]
      rw [process_single_line chain line s hchain hlen (delims_no_CR line hdel) hrx,
        walk_all_decline (padded line) chain 0 hcodes, hwrites]
      simp
    · have hlen33 : (line.take 33).length = 33 := by
        rw [List.length_take, hn]
        omega
      have htake : ∀ c ∈ line.take 33, isDelim c = true :=
        fun c hc => hdel c (List.mem_of_mem_take hc)
      have hdrop : ∀ c ∈ line.drop 33, isDelim c = true :=
        fun c hc => hdel c (List.mem_of_mem_drop hc)
      have hrx1 : s.rx = line.take 33 ++ (line.drop 33 ++ [CR]) := by
        rw [hrx, ← List.append_assoc, List.take_append_drop]
      have hne : s.rx ≠ [] := by simp [hrx]
      have hline := processLine_full_of_delims chain (line.take 33) (line.drop 33 ++ [CR]) s
        hlen33 htake hrx1
      have hn1 : (line.drop 33).length = n - 33 := by
        rw [List.length_drop, hn]
      have h1 := ih (n - 33) (by omega) (line.drop 33) (processLine chain s) hn1 hdrop
        (by rw [hline])
      have hidx : 33 * ((n - 33) / 33) + 33 = 33 * (n / 33) := by omega
      rw [process_step chain s hne, h1.1, h1.2, hline, List.drop_drop, Nat.add_comm 33, hidx]
      exact ⟨rfl, rfl⟩

theorem getCmd_of_delims (st : ParseState) (tail : List Char)
    (hdel : ∀ c ∈ tail, isDelim c = true) (hlen : tail.length ≤ 32)
    (hbuf : st.buffer = padded tail) : tokenOf (getCmd st) = none := by
  have hst := strtokFrom_none [] tail (List.replicate (32 - tail.length) NUL) hdel
  rw [List.length_nil, ← padded_eq_cstr tail hlen] at hst
  simp only [tokenOf, getCmd, hbuf, hst, Option.map_none']

theorem parseMacros_of_delims (expand : List Char → List Char)
    (assocs : List (List Char × Handler)) (st : ParseState)
    (tail : List Char) (hdel : ∀ c ∈ tail, isDelim c = true) (hlen : tail.length ≤ 32)
    (hbuf : st.buffer = padded tail) :
    (parseMacros expand assocs st).called = [] ∧ (parseMacros expand assocs st).code = NEXT ∧
      (parseMacros expand assocs st).state.tx = st.tx := by
  rw [parseMacros_of_none expand assocs st (getCmd_of_delims st tail hdel hlen hbuf)]
  exact ⟨rfl, rfl, rfl⟩

/-- C18. A non-empty chain of plugins whose `parse()` are all written with
`BEGIN_PARSE` ... `END_PARSE`, and a request line made of spaces and semicolons
only (the empty line included), followed by CR.  After the call of `process()`
exactly `UNKNOWN` has been written; every plugin has been invoked once, in
order, on the buffer holding the padded line (for a line of more than 32
characters: what is left of it after each full buffer of 33 was dropped);
and on that buffer the `parse()` of every plugin calls no handler, returns
NEXT and writes nothing. -/
theorem process_delimiter_line_unknown (expand : List Char → List Char)
    (plugins : List (List (List Char × Handler))) (line : List Char) (s : Shell)
    (hne : plugins ≠ []) (hdel : ∀ c ∈ line, isDelim c = true) (hrx : s.rx = line ++ [CR]) :
    (process (plugins.map (macroPlugin expand)) s).tx = s.tx ++ [Write.println UNKNOWN] ∧
      (process (plugins.map (macroPlugin expand)) s).calls =
        s.calls ++ (List.range plugins.length).map
          (fun j => ⟨j, padded (line.drop (33 * (line.length / 33)))⟩) ∧
      (∀ assocs ∈ plugins, ∀ st : ParseState,
        st.buffer = padded (line.drop (33 * (line.length / 33))) →
          (parseMacros expand assocs st).called = [] ∧
            (parseMacros expand assocs st).code = NEXT ∧
            (parseMacros expand assocs st).state.tx = st.tx) ∧
      (line.length ≤ 32 → line.drop (33 * (line.length / 33)) = line) := by
  have hchain : plugins.map (macroPlugin expand) ≠ [] := by simpa using hne
  have hdecl : ∀ tail : List Char, (∀ c ∈ tail, isDelim c = true) → tail.length ≤ 32 →
      ∀ p ∈ plugins.map (macroPlugin expand), p.parse (padded tail) = (NEXT, []) := by
    intro tail htail hlen p hp
    obtain ⟨assocs, _, rfl⟩ := List.mem_map.mp hp
    have h := parseMacros_of_delims expand assocs
      { buffer := padded tail, cmd := padded tail, saved := none, tx := [] } tail htail hlen rfl
    simp only [macroPlugin, h.2.1, h.2.2]
  have hmain := process_delims (plugins.map (macroPlugin expand)) hchain hdecl line.length
    line s rfl hdel hrx
  have htail_del : ∀ c ∈ line.drop (33 * (line.length / 33)), isDelim c = true :=
    fun c hc => hdel c (List.mem_of_mem_drop hc)
  have htail_len : (line.drop (33 * (line.length / 33))).length ≤ 32 := by
    rw [List.length_drop]
    omega
  refine ⟨hmain.1, by simpa using hmain.2, ?_, ?_⟩
  · intro assocs _ st hbuf
    exact parseMacros_of_delims expand assocs st _ htail_del htail_len hbuf
  · intro hfit
    have hzero : 33 * (line.length / 33) = 0 := by omega
    rw [hzero, List.drop_zero]

theorem process_delimiter_line_unknown_witness :
    (process ([sampleAssocs, sampleAssocs].map (macroPlugin (expandWith valueMacros)))
          (idle (delimiterLine ++ [CR]))).tx =
        (idle (delimiterLine ++ [CR])).tx ++ [Write.println UNKNOWN] ∧
      (process ([sampleAssocs, sampleAssocs].map (macroPlugin (expandWith valueMacros)))
          (idle (delimiterLine ++ [CR]))).calls =
        (idle (delimiterLine ++ [CR])).calls ++
          (List.range [sampleAssocs, sampleAssocs].length).map
            (fun j => ⟨j, padded (delimiterLine.drop (33 * (delimiterLine.length / 33)))⟩) ∧
      (∀ assocs ∈ [sampleAssocs, sampleAssocs], ∀ st : ParseState,
        st.buffer = padded (delimiterLine.drop (33 * (delimiterLine.length / 33))) →
          (parseMacros (expandWith valueMacros) assocs st).called = [] ∧
            (parseMacros (expandWith valueMacros) assocs st).code = NEXT ∧
            (parseMacros (expandWith valueMacros) assocs st).state.tx = st.tx) ∧
      (delimiterLine.length ≤ 32 →
        delimiterLine.drop (33 * (delimiterLine.length / 33)) = delimiterLine) :=
  process_delimiter_line_unknown (expandWith valueMacros) [sampleAssocs, sampleAssocs]
    delimiterLine (idle (delimiterLine ++ [CR])) (by simp) (by decide) rfl

end ArduinoShell
